import Mathlib

/-!
# drew: the paint session of `main.go`

A shallow embedding of `src/main.go`, the single source file of `drew`, a
terminal drawing program written against the `tcell` screen library.

* The cell surface of the library is a total map from integer cell coordinates
  to cells (`Screen`); `SetCell` is a pointwise update, `Clear` fills the
  surface with blanks under the screen style, `Show` and `Sync` do not change
  the logical surface.
* The local variables of `main` (`x`, `y`, `w`, `h`, `eraseMode`,
  `primaryColor`, `secondaryColor`, `currentColor`, `pencilStyle`) are the
  fields of `PencilState`; a `Session` pairs them with the screen.
* One pass of the `for` loop is `iteration`: the `switch` over the polled event
  (`dispatch`) followed by the redraw of the four overlay lines (`overlay`).
  `quit()` ends the process, which `dispatch` reports as `none`.
* Go's `int` is the 64-bit two's complement integer. The size of the pencil
  is the one variable the program counts up without a guard: `w++` and `h++`
  wrap past the largest `int` (`wrapInt`). `w--` and `h--` run only under
  `w > 1 && h > 1` and stay in range. The coordinates `x+i`, `y+j` and the
  `x++` of `drawText` are sums of a pointer coordinate and a loop index and
  are kept as integer sums.
-/

namespace Drew

/-! ## The terminal library: colours, styles, cells, the screen -/

/-- The colour constants of the library that `main.go` names, the zero colour
`ColorDefault` of `StyleDefault`, and `NewRGBColor`. -/
inductive Color where
  | ColorDefault
  | ColorReset
  | ColorBlack
  | ColorWhite
  | ColorRed
  | ColorGreen
  | ColorYellow
  | ColorBlue
  | ColorDarkMagenta
  | ColorBrown
  | NewRGBColor (r g b : Nat)
  deriving DecidableEq

/-- A style: a foreground and a background colour. -/
structure Style where
  fg : Color
  bg : Color
  deriving DecidableEq

/-- The zero style of the library. -/
def StyleDefault : Style := ⟨Color.ColorDefault, Color.ColorDefault⟩

/-- `style.Background(c)`: a copy of the style with the background replaced. -/
def Style.Background (st : Style) (c : Color) : Style := { st with bg := c }

/-- `style.Foreground(c)`: a copy of the style with the foreground replaced. -/
def Style.Foreground (st : Style) (c : Color) : Style := { st with fg := c }

/-- One cell of the surface: a glyph and the style it is shown under. -/
structure Cell where
  ch : Char
  style : Style
  deriving DecidableEq

/-- The cell surface, addressed by column and row. -/
abbrev Screen := Int → Int → Cell

/-- `s.SetCell(x, y, style, ch)`: overwrite the cell at column `x`, row `y`. -/
def SetCell (s : Screen) (x y : Int) (style : Style) (ch : Char) : Screen :=
  fun cx cy => if cx = x ∧ cy = y then ⟨ch, style⟩ else s cx cy

/-- A counting loop `for i := 0; i < n; i++ { body }` over a state. -/
def forLoop {σ : Type} (n : Int) (body : Int → σ → σ) (init : σ) : σ :=
  (List.range n.toNat).foldl (fun (acc : σ) (i : Nat) => body (i : Int) acc) init

/-- The value a Go `int` holds after an arithmetic result `z`: `z` reduced
modulo `2^64` into the range `MinInt .. MaxInt`. -/
def wrapInt (z : Int) : Int :=
  (z + 9223372036854775808) % 18446744073709551616 - 9223372036854775808

/-- Button masks are bit sets; bit 0 is the primary button, bits 0 to 7 are
the eight buttons and the bits above them the wheel directions. -/
abbrev ButtonMask := Nat

/-- The primary mouse button, `tcell.Button1`. -/
def Button1 : ButtonMask := 1

/-- The secondary mouse button, `tcell.Button2`. -/
def Button2 : ButtonMask := 2

/-- The wheel-up bit, `tcell.WheelUp`. -/
def WheelUp : ButtonMask := 256

/-! ## `main.go` -/

/-- The entries of the map literal `colorKeyMap` (lines 14-23). -/
def colorKeyTable : List (Char × Color) :=
  [ ('1', Color.ColorWhite),
    ('2', Color.NewRGBColor 26 28 44),
    ('3', Color.ColorRed),
    ('4', Color.ColorGreen),
    ('5', Color.ColorYellow),
    ('6', Color.ColorBlue),
    ('7', Color.ColorDarkMagenta),
    ('8', Color.ColorBrown) ]

/-- Lookup in `colorKeyMap`: `some c` when the rune is a key of the map. -/
def colorKeyMap (r : Char) : Option Color := colorKeyTable.lookup r

/-- The loop of `drawText` (lines 28-31) over the runes of the text. -/
def drawTextRunes (s : Screen) (x y : Int) (style : Style) : List Char → Screen
  | [] => s
  | c :: cs => drawTextRunes (SetCell s x y style c) (x + 1) y style cs

/-- `drawText` (lines 27-32). -/
def drawText (s : Screen) (x y : Int) (style : Style) (text : String) : Screen :=
  drawTextRunes s x y style text.toList

/-- The first pass of `drawBox` (lines 37-41): fill the inside. -/
def drawBoxFill (s : Screen) (x y w h : Int) (style : Style) : Screen :=
  forLoop w (fun i s1 => forLoop h (fun j s2 => SetCell s2 (x + i) (y + j) style ' ') s1) s

/-- The second pass of `drawBox` (lines 44-50): draw the borders. -/
def drawBoxBorder (s : Screen) (x y w h : Int) (style : Style) : Screen :=
  forLoop h (fun ly s1 => forLoop w (fun lx s2 =>
    if lx = 0 ∨ lx = w - 1 ∨ ly = 0 ∨ ly = h - 1 then
      SetCell s2 (x + lx) (y + ly) style ' '
    else s2) s1) s

/-- `drawBox` (lines 35-51). -/
def drawBox (s : Screen) (x y w h : Int) (style : Style) : Screen :=
  drawBoxBorder (drawBoxFill s x y w h style) x y w h style

/-- The local variables of `main` that describe the pencil (lines 55-64). -/
structure PencilState where
  x : Int
  y : Int
  w : Int
  h : Int
  eraseMode : Bool
  primaryColor : Color
  secondaryColor : Color
  currentColor : String
  pencilStyle : Style
  deriving DecidableEq

/-- The pencil together with the screen it draws on. -/
structure Session where
  st : PencilState
  screen : Screen

/-- The events `s.PollEvent()` yields: a resize, a key with its rune
(`ev.Rune()`, the zero rune for a key that has none), a mouse event with its
position (`ev.Position()`) and buttons (`ev.Buttons()`), and any other event,
for which the `switch` has no case. -/
inductive Event where
  | EventResize
  | EventKey (rune : Char)
  | EventMouse (x y : Int) (buttons : ButtonMask)
  | EventOther

/-- The default style (line 63). -/
def defStyle : Style :=
  (StyleDefault.Background Color.ColorReset).Foreground Color.ColorWhite

/-- `s.Clear()`: every cell becomes a blank under the screen style, which
`s.SetStyle(defStyle)` (line 76) set to `defStyle`. -/
def Clear (_s : Screen) : Screen := fun _ _ => ⟨' ', defStyle⟩

/-- The variables as initialised on lines 55-64. -/
def initialPencil : PencilState :=
  { x := 0, y := 0, w := 1, h := 1,
    eraseMode := false,
    primaryColor := (colorKeyMap '1').getD Color.ColorDefault,
    secondaryColor := (colorKeyMap '1').getD Color.ColorDefault,
    currentColor := "primary",
    pencilStyle :=
      (StyleDefault.Background ((colorKeyMap '1').getD Color.ColorDefault)).Foreground
        Color.ColorBlack }

/-- The session when the event loop is entered (after `s.Clear()`, line 79). -/
def initialSession : Session :=
  { st := initialPencil, screen := Clear (fun _ _ => ⟨' ', StyleDefault⟩) }

/-- Lines 101-110: a rune of `colorKeyMap` sets the colour of the current slot. -/
def onColorKey (p : PencilState) (r : Char) : PencilState :=
  match colorKeyMap r with
  | some c =>
    if p.currentColor = "primary" then
      { p with primaryColor := c, pencilStyle := p.pencilStyle.Background c }
    else
      { p with secondaryColor := c, pencilStyle := p.pencilStyle.Background c }
  | none => p

/-- Lines 111-119: `x` or `X` switches the current slot. -/
def onSwitchKey (p : PencilState) (r : Char) : PencilState :=
  if r = 'x' ∨ r = 'X' then
    if p.currentColor = "primary" then
      { p with currentColor := "secondary",
               pencilStyle := p.pencilStyle.Background p.secondaryColor }
    else
      { p with currentColor := "primary",
               pencilStyle := p.pencilStyle.Background p.primaryColor }
  else p

/-- Lines 123-125: `c` or `C` clears the screen. -/
def onClearKey (s : Screen) (r : Char) : Screen :=
  if r = 'c' ∨ r = 'C' then Clear s else s

/-- Lines 126-128: `e` toggles the erase mode. -/
def onEraseKey (p : PencilState) (r : Char) : PencilState :=
  if r = 'e' then { p with eraseMode := !p.eraseMode } else p

/-- Lines 129-133: `]` increases the size of the pencil; `w++` and `h++` are
increments of a Go `int` and wrap. -/
def onGrowKey (p : PencilState) (r : Char) : PencilState :=
  if r = ']' then { p with w := wrapInt (p.w + 1), h := wrapInt (p.h + 1) } else p

/-- Lines 134-140: `[` decreases the size of the pencil, down to 1. -/
def onShrinkKey (p : PencilState) (r : Char) : PencilState :=
  if r = '[' then
    if p.w > 1 ∧ p.h > 1 then { p with w := p.w - 1, h := p.h - 1 } else p
  else p

/-- The `*tcell.EventKey` case (lines 100-140); `none` is the exit in `quit()`. -/
def dispatchKey (σ : Session) (r : Char) : Option Session :=
  let p1 := onColorKey σ.st r
  let p2 := onSwitchKey p1 r
  if r = 'q' ∨ r = 'Q' then none
  else
    let s1 := onClearKey σ.screen r
    let p3 := onEraseKey p2 r
    let p4 := onGrowKey p3 r
    let p5 := onShrinkKey p4 r
    some { st := p5, screen := s1 }

/-- The `*tcell.EventMouse` case (lines 141-154). -/
def dispatchMouse (σ : Session) (px py : Int) (buttons : ButtonMask) : Session :=
  let p := { σ.st with x := px, y := py }
  let button := buttons &&& 0xff
  if button = Button1 then
    if p.eraseMode then
      { st := p, screen := drawBox σ.screen p.x p.y p.w p.h defStyle }
    else
      { st := p, screen := drawBox σ.screen p.x p.y p.w p.h p.pencilStyle }
  else
    { st := p, screen := σ.screen }

/-- The `switch` over the polled event (lines 97-155). -/
def dispatch (σ : Session) : Event → Option Session
  | Event.EventResize => some σ
  | Event.EventKey r => dispatchKey σ r
  | Event.EventMouse px py buttons => some (dispatchMouse σ px py buttons)
  | Event.EventOther => some σ

/-- The text of the legend line (line 158). -/
def helpText : String :=
  "q - quit | x - switch color | c - clear | e - erase | Left Click - draw | 1-9 - colors | ? - help (TODO)"

/-- The text of the position and size line (line 164). -/
def infoText (p : PencilState) : String :=
  toString p.x ++ ", " ++ toString p.y ++ " | " ++ toString p.w ++ ", " ++ toString p.h ++ "   "

/-- The text of the status line (line 171). -/
def statusText (p : PencilState) : String :=
  p.currentColor ++ " | " ++ toString p.eraseMode ++ "   "

/-- The redraw at the end of every pass of the loop (lines 157-171). -/
def overlayScreen (p : PencilState) (s : Screen) : Screen :=
  let s1 := drawText s 0 0 defStyle helpText
  let s2 := drawText s1 0 1 defStyle (infoText p)
  let s3 :=
    if p.currentColor = "primary" then drawText s2 0 2 p.pencilStyle " "
    else drawText s2 0 2 (p.pencilStyle.Background p.primaryColor) " "
  let s4 := drawText s3 1 2 (p.pencilStyle.Background p.secondaryColor) " "
  drawText s4 0 3 defStyle (statusText p)

/-- The overlay redraw on a session: the pencil is not touched. -/
def overlay (σ : Session) : Session :=
  { st := σ.st, screen := overlayScreen σ.st σ.screen }

/-- One pass of the event loop for one polled event (lines 91-172). -/
def iteration (σ : Session) (ev : Event) : Option Session :=
  (dispatch σ ev).map overlay

/-- The event loop over a finite sequence of events; `none` once it has quit. -/
def run : Session → List Event → Option Session
  | σ, [] => some σ
  | σ, ev :: evs =>
    match iteration σ ev with
    | some σ1 => run σ1 evs
    | none => none

/-- A session is reachable when the loop gets to it from the initial session. -/
def Reachable (σ : Session) : Prop := ∃ evs : List Event, run initialSession evs = some σ

/-! ## Sessions the theorems are evaluated on, and the predicates they use -/

/-- A sequence of events: colour keys and slot switches. -/
def recolouredEvents : List Event :=
  [Event.EventKey '3', Event.EventKey 'x', Event.EventKey '5', Event.EventKey 'X',
   Event.EventKey '7', Event.EventKey 'x']

/-- The session the loop reaches on `recolouredEvents`. -/
def recolouredSession : Session := (run initialSession recolouredEvents).getD initialSession

/-- A pencil of size 3 × 3 in the second slot, used to evaluate the mouse case. -/
def samplePencil : PencilState :=
  { x := 4, y := 7, w := 3, h := 3,
    eraseMode := false,
    primaryColor := Color.ColorRed,
    secondaryColor := Color.ColorYellow,
    currentColor := "secondary",
    pencilStyle := ⟨Color.ColorBlack, Color.ColorYellow⟩ }

/-- A session with `samplePencil` on a cleared screen. -/
def sampleSession : Session :=
  { st := samplePencil, screen := Clear (fun _ _ => ⟨' ', StyleDefault⟩) }

/-- A session in erase mode with a 1 × 1 pencil whose colour is red, on a
screen every cell of which has been painted yellow. -/
def eraseSession : Session :=
  { st := { x := 9, y := 9, w := 1, h := 1,
            eraseMode := true,
            primaryColor := Color.ColorRed,
            secondaryColor := Color.ColorBlue,
            currentColor := "primary",
            pencilStyle := ⟨Color.ColorBlack, Color.ColorRed⟩ },
    screen := fun _ _ => ⟨'#', ⟨Color.ColorBlack, Color.ColorYellow⟩⟩ }

/-- The pencil after the key case, when the key is not a quit key. -/
def keyPencil (p : PencilState) (r : Char) : PencilState :=
  onShrinkKey (onGrowKey (onEraseKey (onSwitchKey (onColorKey p r) r) r) r) r

/-- The style of the pencil shows the colour of the current slot, which is one
of the two slots. -/
def SlotOk (p : PencilState) : Prop :=
  (p.currentColor = "primary" ∧ p.pencilStyle.bg = p.primaryColor) ∨
  (p.currentColor = "secondary" ∧ p.pencilStyle.bg = p.secondaryColor)

/-- What a text drawn at `(x, y)` puts into the cell `(cx, cy)`: the rune at
offset `cx - x` under the style when the cell is on row `y` at or after column
`x` and the text reaches it, nothing otherwise. -/
def textCell (cs : List Char) (x y : Int) (style : Style) (cx cy : Int) : Option Cell :=
  if cy = y ∧ x ≤ cx then (cs[(cx - x).toNat]?).map (fun c => ⟨c, style⟩) else none

/-- The single fill pass of the specification of `drawBox`: a blank under the
style in every cell `(x+i, y+j)` with `0 ≤ i < w` and `0 ≤ j < h`, that is in
every cell `(cx, cy)` with `x ≤ cx < x + w` and `y ≤ cy < y + h`; every other
cell as it was. -/
def singleFill (s : Screen) (x y w h : Int) (style : Style) : Screen :=
  fun cx cy =>
    if x ≤ cx ∧ cx < x + w ∧ y ≤ cy ∧ cy < y + h then ⟨' ', style⟩ else s cx cy

/-- A surface with a distinct glyph per column parity, to tell cells apart. -/
def stripedScreen : Screen :=
  fun cx _ => if cx % 2 = 0 then ⟨'a', StyleDefault⟩ else ⟨'b', defStyle⟩

/-- What the overlay redraw puts into the cell `(cx, cy)`, if anything: the
later of the five `drawText` calls of lines 158-171 that reaches the cell. -/
def overlayCell (p : PencilState) (cx cy : Int) : Option Cell :=
  textCell (statusText p).toList 0 3 defStyle cx cy <|>
  (textCell " ".toList 1 2 (p.pencilStyle.Background p.secondaryColor) cx cy <|>
  (textCell " ".toList 0 2
      (if p.currentColor = "primary" then p.pencilStyle
       else p.pencilStyle.Background p.primaryColor) cx cy <|>
  (textCell (infoText p).toList 0 1 defStyle cx cy <|>
   textCell helpText.toList 0 0 defStyle cx cy)))

/-- The cells the overlay redraw writes: the legend on row 0, the position and
size line on row 1, the two swatch cells on row 2, the status line on row 3. -/
def overlayWrites (p : PencilState) (cx cy : Int) : Prop :=
  (cy = 0 ∧ 0 ≤ cx ∧ cx < helpText.length) ∨
  (cy = 1 ∧ 0 ≤ cx ∧ cx < (infoText p).length) ∨
  (cy = 2 ∧ (cx = 0 ∨ cx = 1)) ∨
  (cy = 3 ∧ 0 ≤ cx ∧ cx < (statusText p).length)

/-- The events on which the loop ends: the keys `q` and `Q` (lines 120-122). -/
def quits : Event → Bool
  | Event.EventKey r => decide (r = 'q' ∨ r = 'Q')
  | _ => false

/-- Scenario A, first event: the key `3`. -/
def scenarioAMid : Session :=
  (run initialSession [Event.EventKey '3']).getD initialSession

/-- Scenario A: the key `3`, then a click of the primary button at `(5, 5)`. -/
def scenarioAEvents : List Event :=
  [Event.EventKey '3', Event.EventMouse 5 5 Button1]

/-- The session the loop reaches on `scenarioAEvents`. -/
def scenarioASession : Session := (run initialSession scenarioAEvents).getD initialSession

/-- Two pointer moves with no button: to `(100, 100)`, then to `(1, 1)`. -/
def staleEvents : List Event :=
  [Event.EventMouse 100 100 0, Event.EventMouse 1 1 0]

/-- The session the loop reaches on the first event of `staleEvents`. -/
def staleMid : Session :=
  (run initialSession [Event.EventMouse 100 100 0]).getD initialSession

/-- The session the loop reaches on `staleEvents`. -/
def staleSession : Session := (run initialSession staleEvents).getD initialSession

/-- The status text without its three trailing blanks. -/
def statusCore (p : PencilState) : String :=
  p.currentColor ++ " | " ++ toString p.eraseMode

/-- Row 3 holds a blank glyph in every cell left of column 0 and in every cell
from the end of the status text (without its padding) on. -/
def StatusRowOk (σ : Session) : Prop :=
  ∀ cx : Int, (cx < 0 ∨ ((statusCore σ.st).length : Int) ≤ cx) → (σ.screen cx 3).ch = ' '

/-- The session the loop reaches from `recolouredSession` on the key `x`. -/
def switchedSession : Session :=
  (iteration recolouredSession (Event.EventKey 'x')).getD recolouredSession

/-! ## The renderer: what the loops of `drawBox` write -/

/-- A fold of cell writes: a cell some step paints holds the painted value,
a cell no step paints keeps its content. -/
theorem foldl_paint (v : Cell) (P : Nat → Int → Int → Prop)
    (body : Nat → Screen → Screen)
    (hin : ∀ i acc cx cy, P i cx cy → body i acc cx cy = v)
    (hout : ∀ i acc cx cy, ¬ P i cx cy → body i acc cx cy = acc cx cy)
    (cx cy : Int) (l : List Nat) :
    ∀ s : Screen,
      ((∃ i ∈ l, P i cx cy) → l.foldl (fun acc i => body i acc) s cx cy = v) ∧
      ((¬ ∃ i ∈ l, P i cx cy) → l.foldl (fun acc i => body i acc) s cx cy = s cx cy) := by
  induction l with
  | nil =>
    intro s
    exact ⟨fun ⟨i, hi, _⟩ => absurd hi (List.not_mem_nil i), fun _ => rfl⟩
  | cons a l ih =>
    intro s
    have ih1 := ih (body a s)
    simp only [List.foldl_cons]
    by_cases hl : ∃ i ∈ l, P i cx cy
    · refine ⟨fun _ => ih1.1 hl, fun hno => ?_⟩
      obtain ⟨i, hi, hp⟩ := hl
      exact absurd ⟨i, List.mem_cons_of_mem a hi, hp⟩ hno
    · constructor
      · rintro ⟨i, hi, hp⟩
        rcases List.mem_cons.1 hi with rfl | hi1
        · rw [ih1.2 hl]
          exact hin i s cx cy hp
        · exact absurd ⟨i, hi1, hp⟩ hl
      · intro hno
        rw [ih1.2 hl]
        exact hout a s cx cy (fun hp => hno ⟨a, List.mem_cons_self a l, hp⟩)

/-- The indices of a counting loop reach exactly the offsets `0 ≤ c - x < n`. -/
theorem exists_range_iff (n x c : Int) :
    (∃ i ∈ List.range n.toNat, c = x + (i : Int)) ↔ (x ≤ c ∧ c < x + n) := by
  constructor
  · rintro ⟨i, hi, rfl⟩
    have := List.mem_range.1 hi
    omega
  · rintro ⟨h1, h2⟩
    refine ⟨(c - x).toNat, List.mem_range.2 ?_, ?_⟩ <;> omega

/-- A single `SetCell`, read at a cell. -/
theorem SetCell_apply (s : Screen) (x y : Int) (style : Style) (ch : Char) (cx cy : Int) :
    SetCell s x y style ch cx cy = if cx = x ∧ cy = y then ⟨ch, style⟩ else s cx cy := rfl

/-- The inner loop of the fill pass paints column `a` on the rows `y .. y+h-1`. -/
theorem fillColumn_apply (s : Screen) (a y h : Int) (style : Style) (cx cy : Int) :
    forLoop h (fun j s2 => SetCell s2 a (y + j) style ' ') s cx cy
      = if cx = a ∧ y ≤ cy ∧ cy < y + h then ⟨' ', style⟩ else s cx cy := by
  have key := foldl_paint ⟨' ', style⟩ (fun j cx cy => cx = a ∧ cy = y + (j : Int))
    (fun j s2 => SetCell s2 a (y + (j : Int)) style ' ')
    (fun i acc cx cy hp => by simp only [SetCell_apply, if_pos hp])
    (fun i acc cx cy hp => by simp only [SetCell_apply, if_neg hp])
    cx cy (List.range h.toNat) s
  unfold forLoop
  by_cases hc : cx = a ∧ y ≤ cy ∧ cy < y + h
  · rw [if_pos hc]
    obtain ⟨j, hj, hjc⟩ := (exists_range_iff h y cy).2 hc.2
    exact key.1 ⟨j, hj, hc.1, hjc⟩
  · rw [if_neg hc]
    refine key.2 ?_
    rintro ⟨j, hj, hja, hjc⟩
    exact hc ⟨hja, (exists_range_iff h y cy).1 ⟨j, hj, hjc⟩⟩

/-- The fill pass of `drawBox`, read at a cell. -/
theorem drawBoxFill_apply (s : Screen) (x y w h : Int) (style : Style) (cx cy : Int) :
    drawBoxFill s x y w h style cx cy
      = if x ≤ cx ∧ cx < x + w ∧ y ≤ cy ∧ cy < y + h then ⟨' ', style⟩ else s cx cy := by
  have key := foldl_paint ⟨' ', style⟩
    (fun i cx cy => cx = x + (i : Int) ∧ y ≤ cy ∧ cy < y + h)
    (fun i s1 => forLoop h (fun j s2 => SetCell s2 (x + (i : Int)) (y + j) style ' ') s1)
    (fun i acc cx cy hp => by beta_reduce at hp ⊢; rw [fillColumn_apply, if_pos hp])
    (fun i acc cx cy hp => by beta_reduce at hp ⊢; rw [fillColumn_apply, if_neg hp])
    cx cy (List.range w.toNat) s
  unfold drawBoxFill
  unfold forLoop at key ⊢
  by_cases hc : x ≤ cx ∧ cx < x + w ∧ y ≤ cy ∧ cy < y + h
  · rw [if_pos hc]
    obtain ⟨i, hi, hic⟩ := (exists_range_iff w x cx).2 ⟨hc.1, hc.2.1⟩
    exact key.1 ⟨i, hi, hic, hc.2.2⟩
  · rw [if_neg hc]
    refine key.2 ?_
    rintro ⟨i, hi, hic, hrow⟩
    have := (exists_range_iff w x cx).1 ⟨i, hi, hic⟩
    exact hc ⟨this.1, this.2, hrow⟩

/-- The inner loop of the border pass on row `y + ly`: it paints the cells of
that row that lie on the border of the box. -/
theorem borderRow_apply (s : Screen) (x y w h ly : Int) (style : Style) (cx cy : Int) :
    forLoop w (fun lx s2 =>
        if lx = 0 ∨ lx = w - 1 ∨ ly = 0 ∨ ly = h - 1 then
          SetCell s2 (x + lx) (y + ly) style ' '
        else s2) s cx cy
      = if cy = y + ly ∧ x ≤ cx ∧ cx < x + w ∧
            (cx = x ∨ cx = x + w - 1 ∨ ly = 0 ∨ ly = h - 1)
        then ⟨' ', style⟩ else s cx cy := by
  have key := foldl_paint ⟨' ', style⟩
    (fun lx cx cy => ((lx : Int) = 0 ∨ (lx : Int) = w - 1 ∨ ly = 0 ∨ ly = h - 1) ∧
      cx = x + (lx : Int) ∧ cy = y + ly)
    (fun lx s2 =>
      if (lx : Int) = 0 ∨ (lx : Int) = w - 1 ∨ ly = 0 ∨ ly = h - 1 then
        SetCell s2 (x + (lx : Int)) (y + ly) style ' '
      else s2)
    (fun i acc cx cy hp => by
      beta_reduce at hp ⊢
      rw [if_pos hp.1, SetCell_apply, if_pos hp.2])
    (fun i acc cx cy hp => by
      beta_reduce at hp ⊢
      by_cases hb : (i : Int) = 0 ∨ (i : Int) = w - 1 ∨ ly = 0 ∨ ly = h - 1
      · rw [if_pos hb, SetCell_apply, if_neg (fun hxy => hp ⟨hb, hxy⟩)]
      · rw [if_neg hb])
    cx cy (List.range w.toNat) s
  unfold forLoop
  by_cases hc : cy = y + ly ∧ x ≤ cx ∧ cx < x + w ∧
      (cx = x ∨ cx = x + w - 1 ∨ ly = 0 ∨ ly = h - 1)
  · rw [if_pos hc]
    obtain ⟨hrow, h1, h2, hb⟩ := hc
    obtain ⟨i, hi, hic⟩ := (exists_range_iff w x cx).2 ⟨h1, h2⟩
    refine key.1 ⟨i, hi, ?_, hic, hrow⟩
    omega
  · rw [if_neg hc]
    refine key.2 ?_
    rintro ⟨i, hi, hb, hic, hrow⟩
    have hspan := (exists_range_iff w x cx).1 ⟨i, hi, hic⟩
    refine hc ⟨hrow, hspan.1, hspan.2, ?_⟩
    omega

/-- The border pass of `drawBox`, read at a cell: it paints the cells of the
box that lie in its first or last column or row. -/
theorem drawBoxBorder_apply (s : Screen) (x y w h : Int) (style : Style) (cx cy : Int) :
    drawBoxBorder s x y w h style cx cy
      = if (x ≤ cx ∧ cx < x + w ∧ y ≤ cy ∧ cy < y + h) ∧
            (cx = x ∨ cx = x + w - 1 ∨ cy = y ∨ cy = y + h - 1)
        then ⟨' ', style⟩ else s cx cy := by
  have key := foldl_paint ⟨' ', style⟩
    (fun ly cx cy => cy = y + (ly : Int) ∧ x ≤ cx ∧ cx < x + w ∧
      (cx = x ∨ cx = x + w - 1 ∨ (ly : Int) = 0 ∨ (ly : Int) = h - 1))
    (fun ly s1 => forLoop w (fun lx s2 =>
      if lx = 0 ∨ lx = w - 1 ∨ (ly : Int) = 0 ∨ (ly : Int) = h - 1 then
        SetCell s2 (x + lx) (y + (ly : Int)) style ' '
      else s2) s1)
    (fun i acc cx cy hp => by beta_reduce at hp ⊢; rw [borderRow_apply, if_pos hp])
    (fun i acc cx cy hp => by beta_reduce at hp ⊢; rw [borderRow_apply, if_neg hp])
    cx cy (List.range h.toNat) s
  unfold drawBoxBorder
  unfold forLoop at key ⊢
  by_cases hc : (x ≤ cx ∧ cx < x + w ∧ y ≤ cy ∧ cy < y + h) ∧
      (cx = x ∨ cx = x + w - 1 ∨ cy = y ∨ cy = y + h - 1)
  · rw [if_pos hc]
    obtain ⟨⟨h1, h2, h3, h4⟩, hb⟩ := hc
    obtain ⟨j, hj, hjc⟩ := (exists_range_iff h y cy).2 ⟨h3, h4⟩
    refine key.1 ⟨j, hj, hjc, h1, h2, ?_⟩
    omega
  · rw [if_neg hc]
    refine key.2 ?_
    rintro ⟨j, hj, hjc, h1, h2, hb⟩
    have hspan := (exists_range_iff h y cy).1 ⟨j, hj, hjc⟩
    refine hc ⟨⟨h1, h2, hspan.1, hspan.2⟩, ?_⟩
    omega

/-- Both passes of `drawBox` together, read at a cell: a cell of the
`w × h` box anchored at `(x, y)` holds a blank under the style, every other
cell keeps its content. -/
theorem drawBox_apply (s : Screen) (x y w h : Int) (style : Style) (cx cy : Int) :
    drawBox s x y w h style cx cy
      = if x ≤ cx ∧ cx < x + w ∧ y ≤ cy ∧ cy < y + h then ⟨' ', style⟩ else s cx cy := by
  unfold drawBox
  rw [drawBoxBorder_apply, drawBoxFill_apply]
  by_cases hc : x ≤ cx ∧ cx < x + w ∧ y ≤ cy ∧ cy < y + h
  · simp only [if_pos hc, ite_self]
  · rw [if_neg hc, if_neg (fun hh => hc hh.1)]

/-! ## Pointer events -/

/-- Masking with `0xff` keeps the low eight bits of a button mask. -/
theorem mask_eq_mod (b : ButtonMask) : b &&& 0xff = b % 256 :=
  Nat.and_pow_two_sub_one_eq_mod b 8

/-- C1: a pointer event whose button mask, with the wheel bits masked out, is
the primary button, received with erase mode off, sets the position to the
event coordinate (and nothing else of the pencil), writes a blank under the
current `pencilStyle` into every cell `(px+i, py+j)` with `0 ≤ i < w`,
`0 ≤ j < h`, and leaves every other cell of the surface as it was. -/
theorem primary_click_paints (σ : Session) (px py : Int) (buttons : ButtonMask)
    (hb : buttons &&& 0xff = Button1) (he : σ.st.eraseMode = false) :
    ∃ σ1, dispatch σ (Event.EventMouse px py buttons) = some σ1 ∧
      σ1.st = { σ.st with x := px, y := py } ∧
      (∀ i j : Int, 0 ≤ i → i < σ.st.w → 0 ≤ j → j < σ.st.h →
        σ1.screen (px + i) (py + j) = ⟨' ', σ.st.pencilStyle⟩) ∧
      (∀ cx cy : Int,
        (¬ ∃ i j : Int, 0 ≤ i ∧ i < σ.st.w ∧ 0 ≤ j ∧ j < σ.st.h ∧
            cx = px + i ∧ cy = py + j) →
        σ1.screen cx cy = σ.screen cx cy) := by
  refine ⟨dispatchMouse σ px py buttons, rfl, ?_, ?_, ?_⟩
  · simp [dispatchMouse, hb, he]
  · intro i j hi0 hiw hj0 hjh
    simp only [dispatchMouse, hb, he, if_true, Bool.false_eq_true, if_false, drawBox_apply]
    rw [if_pos]
    omega
  · intro cx cy hout
    simp only [dispatchMouse, hb, he, if_true, Bool.false_eq_true, if_false, drawBox_apply]
    rw [if_neg]
    intro hin
    exact hout ⟨cx - px, cy - py, by omega, by omega, by omega, by omega, by omega, by omega⟩

/-- C1 at size 3 × 3 and a click at `(10, 10)` with a wheel bit set besides
the primary button. -/
theorem primary_click_paints_witness :
    ((Button1 + WheelUp) &&& 0xff = Button1 ∧ sampleSession.st.eraseMode = false) ∧
    ∃ σ1, dispatch sampleSession (Event.EventMouse 10 10 (Button1 + WheelUp)) = some σ1 ∧
      σ1.st = { sampleSession.st with x := 10, y := 10 } ∧
      (∀ i j : Int, 0 ≤ i → i < sampleSession.st.w → 0 ≤ j → j < sampleSession.st.h →
        σ1.screen (10 + i) (10 + j) = ⟨' ', sampleSession.st.pencilStyle⟩) ∧
      (∀ cx cy : Int,
        (¬ ∃ i j : Int, 0 ≤ i ∧ i < sampleSession.st.w ∧ 0 ≤ j ∧ j < sampleSession.st.h ∧
            cx = 10 + i ∧ cy = 10 + j) →
        σ1.screen cx cy = sampleSession.screen cx cy) :=
  ⟨⟨by decide, rfl⟩,
   primary_click_paints sampleSession 10 10 (Button1 + WheelUp) (by decide) rfl⟩

/-- C2: with erase mode on, a primary-button pointer event writes a blank
under the default style into every cell of the `w × h` box anchored at the
event coordinate, whatever the colours, the slot and `pencilStyle` are, and
leaves the other cells as they were. -/
theorem primary_click_erases (σ : Session) (px py : Int) (buttons : ButtonMask)
    (hb : buttons &&& 0xff = Button1) (he : σ.st.eraseMode = true) :
    ∃ σ1, dispatch σ (Event.EventMouse px py buttons) = some σ1 ∧
      σ1.st = { σ.st with x := px, y := py } ∧
      (∀ i j : Int, 0 ≤ i → i < σ.st.w → 0 ≤ j → j < σ.st.h →
        σ1.screen (px + i) (py + j) = ⟨' ', defStyle⟩) ∧
      (∀ cx cy : Int,
        (¬ ∃ i j : Int, 0 ≤ i ∧ i < σ.st.w ∧ 0 ≤ j ∧ j < σ.st.h ∧
            cx = px + i ∧ cy = py + j) →
        σ1.screen cx cy = σ.screen cx cy) := by
  refine ⟨dispatchMouse σ px py buttons, rfl, ?_, ?_, ?_⟩
  · simp [dispatchMouse, hb, he]
  · intro i j hi0 hiw hj0 hjh
    simp only [dispatchMouse, hb, he, if_true, drawBox_apply]
    rw [if_pos]
    omega
  · intro cx cy hout
    simp only [dispatchMouse, hb, he, if_true, drawBox_apply]
    rw [if_neg]
    intro hin
    exact hout ⟨cx - px, cy - py, by omega, by omega, by omega, by omega, by omega, by omega⟩

/-- C2 at size 1 × 1 and a click at `(0, 0)` with a red pencil on a yellow
surface: the cell `(0, 0)` carries the default style afterwards. -/
theorem primary_click_erases_witness :
    (Button1 &&& 0xff = Button1 ∧ eraseSession.st.eraseMode = true) ∧
    ∃ σ1, dispatch eraseSession (Event.EventMouse 0 0 Button1) = some σ1 ∧
      σ1.st = { eraseSession.st with x := 0, y := 0 } ∧
      (∀ i j : Int, 0 ≤ i → i < eraseSession.st.w → 0 ≤ j → j < eraseSession.st.h →
        σ1.screen (0 + i) (0 + j) = ⟨' ', defStyle⟩) ∧
      (∀ cx cy : Int,
        (¬ ∃ i j : Int, 0 ≤ i ∧ i < eraseSession.st.w ∧ 0 ≤ j ∧ j < eraseSession.st.h ∧
            cx = 0 + i ∧ cy = 0 + j) →
        σ1.screen cx cy = eraseSession.screen cx cy) :=
  ⟨⟨by decide, rfl⟩, primary_click_erases eraseSession 0 0 Button1 (by decide) rfl⟩

/-- C9: a pointer event whose button mask, with the wheel bits masked out, is
not the primary button sets the position to the event coordinate and changes
nothing else: the surface and all other variables of the pencil stay. -/
theorem other_button_moves_only (σ : Session) (px py : Int) (buttons : ButtonMask)
    (hb : buttons &&& 0xff ≠ Button1) :
    dispatch σ (Event.EventMouse px py buttons)
      = some { st := { σ.st with x := px, y := py }, screen := σ.screen } := by
  show some (dispatchMouse σ px py buttons) = _
  unfold dispatchMouse
  simp only [if_neg hb]

/-- C9 for a pointer move with no button, at the sample session. -/
theorem other_button_moves_only_witness :
    (0 &&& 0xff ≠ Button1) ∧
    dispatch sampleSession (Event.EventMouse 2 3 0)
      = some { st := { sampleSession.st with x := 2, y := 3 },
               screen := sampleSession.screen } :=
  ⟨by decide, other_button_moves_only sampleSession 2 3 0 (by decide)⟩

/-! ## The event loop: invariants of the pencil -/

/-- The key case either quits or yields `keyPencil` and the screen of the
clear key. -/
theorem dispatchKey_eq (σ : Session) (r : Char) :
    dispatchKey σ r
      = if r = 'q' ∨ r = 'Q' then none
        else some { st := keyPencil σ.st r, screen := onClearKey σ.screen r } := rfl

/-- The overlay redraw does not touch the pencil. -/
theorem overlay_st (σ : Session) : (overlay σ).st = σ.st := rfl

/-- The mouse case sets the position and leaves the rest of the pencil alone. -/
theorem dispatchMouse_st (σ : Session) (px py : Int) (buttons : ButtonMask) :
    (dispatchMouse σ px py buttons).st = { σ.st with x := px, y := py } := by
  simp only [dispatchMouse]
  split_ifs <;> rfl

/-- A pass of the loop yields a session exactly when the dispatch does, and the
pencil after the pass is the pencil after the dispatch. -/
theorem iteration_eq_some {σ σ2 : Session} {ev : Event} (h : iteration σ ev = some σ2) :
    ∃ σ1, dispatch σ ev = some σ1 ∧ σ2 = overlay σ1 := by
  unfold iteration at h
  cases hd : dispatch σ ev with
  | none => rw [hd] at h; exact absurd h (by simp)
  | some σ1 =>
    rw [hd] at h
    exact ⟨σ1, rfl, (Option.some.inj h).symm⟩

/-- A property of the pencil that every dispatch preserves holds along every
run of the loop. -/
theorem run_preserves (I : PencilState → Prop)
    (hstep : ∀ (σ : Session) (ev : Event) (σ1 : Session),
      I σ.st → dispatch σ ev = some σ1 → I σ1.st) :
    ∀ (evs : List Event) (σ σ2 : Session), I σ.st → run σ evs = some σ2 → I σ2.st := by
  intro evs
  induction evs with
  | nil =>
    intro σ σ2 hI hrun
    have : σ = σ2 := Option.some.inj hrun
    exact this ▸ hI
  | cons ev evs ih =>
    intro σ σ2 hI hrun
    unfold run at hrun
    cases hit : iteration σ ev with
    | none => rw [hit] at hrun; exact absurd hrun (by simp)
    | some σ1 =>
      rw [hit] at hrun
      obtain ⟨σd, hd, rfl⟩ := iteration_eq_some hit
      exact ih (overlay σd) σ2 (hstep σ ev σd hI hd) hrun

/-- The colour key leaves position, size, erase mode and slot alone. -/
theorem onColorKey_frame (p : PencilState) (r : Char) :
    (onColorKey p r).x = p.x ∧ (onColorKey p r).y = p.y ∧
    (onColorKey p r).w = p.w ∧ (onColorKey p r).h = p.h ∧
    (onColorKey p r).eraseMode = p.eraseMode ∧
    (onColorKey p r).currentColor = p.currentColor := by
  unfold onColorKey
  cases colorKeyMap r with
  | none => exact ⟨rfl, rfl, rfl, rfl, rfl, rfl⟩
  | some c =>
    by_cases hc : p.currentColor = "primary"
    · simp only [if_pos hc, and_self]
    · simp only [if_neg hc, and_self]

/-- The switch key leaves position, size, erase mode and both colours alone. -/
theorem onSwitchKey_frame (p : PencilState) (r : Char) :
    (onSwitchKey p r).x = p.x ∧ (onSwitchKey p r).y = p.y ∧
    (onSwitchKey p r).w = p.w ∧ (onSwitchKey p r).h = p.h ∧
    (onSwitchKey p r).eraseMode = p.eraseMode ∧
    (onSwitchKey p r).primaryColor = p.primaryColor ∧
    (onSwitchKey p r).secondaryColor = p.secondaryColor := by
  unfold onSwitchKey
  by_cases hr : r = 'x' ∨ r = 'X'
  · by_cases hc : p.currentColor = "primary"
    · simp only [if_pos hr, if_pos hc, and_self]
    · simp only [if_pos hr, if_neg hc, and_self]
  · simp only [if_neg hr, and_self]

/-- The erase key changes the erase mode only. -/
theorem onEraseKey_eq (p : PencilState) (r : Char) :
    onEraseKey p r
      = { p with eraseMode := if r = 'e' then !p.eraseMode else p.eraseMode } := by
  unfold onEraseKey
  by_cases hr : r = 'e'
  · simp only [if_pos hr]
  · simp only [if_neg hr]

/-- The grow key changes the size only. -/
theorem onGrowKey_eq (p : PencilState) (r : Char) :
    onGrowKey p r
      = { p with w := if r = ']' then wrapInt (p.w + 1) else p.w,
                 h := if r = ']' then wrapInt (p.h + 1) else p.h } := by
  unfold onGrowKey
  by_cases hr : r = ']'
  · simp only [if_pos hr]
  · simp only [if_neg hr]

/-- The shrink key changes the size only. -/
theorem onShrinkKey_eq (p : PencilState) (r : Char) :
    onShrinkKey p r
      = { p with w := if r = '[' ∧ p.w > 1 ∧ p.h > 1 then p.w - 1 else p.w,
                 h := if r = '[' ∧ p.w > 1 ∧ p.h > 1 then p.h - 1 else p.h } := by
  unfold onShrinkKey
  by_cases hr : r = '['
  · by_cases hs : p.w > 1 ∧ p.h > 1
    · simp [hr, hs]
    · simp [hr, hs]
  · simp [hr]

/-- The colour key keeps the style in step with the current slot. -/
theorem onColorKey_slotOk (p : PencilState) (r : Char) (hp : SlotOk p) :
    SlotOk (onColorKey p r) := by
  unfold onColorKey
  cases colorKeyMap r with
  | none => exact hp
  | some c =>
    rcases hp with ⟨hc, _⟩ | ⟨hc, _⟩
    · simp only [if_pos hc]
      exact Or.inl ⟨hc, rfl⟩
    · have hne : p.currentColor ≠ "primary" := by rw [hc]; decide
      simp only [if_neg hne]
      exact Or.inr ⟨hc, rfl⟩

/-- The switch key keeps the style in step with the current slot. -/
theorem onSwitchKey_slotOk (p : PencilState) (r : Char) (hp : SlotOk p) :
    SlotOk (onSwitchKey p r) := by
  unfold onSwitchKey
  by_cases hr : r = 'x' ∨ r = 'X'
  · rw [if_pos hr]
    by_cases hc : p.currentColor = "primary"
    · rw [if_pos hc]
      exact Or.inr ⟨rfl, rfl⟩
    · rw [if_neg hc]
      exact Or.inl ⟨rfl, rfl⟩
  · rw [if_neg hr]
    exact hp

/-- The key case keeps the style in step with the current slot. -/
theorem keyPencil_slotOk (p : PencilState) (r : Char) (hp : SlotOk p) :
    SlotOk (keyPencil p r) := by
  have h2 := onSwitchKey_slotOk (onColorKey p r) r (onColorKey_slotOk p r hp)
  unfold keyPencil
  rw [onShrinkKey_eq, onGrowKey_eq, onEraseKey_eq]
  exact h2

/-- Every dispatch keeps the style in step with the current slot. -/
theorem dispatch_slotOk (σ : Session) (ev : Event) (σ1 : Session)
    (hp : SlotOk σ.st) (hd : dispatch σ ev = some σ1) : SlotOk σ1.st := by
  cases ev with
  | EventResize =>
    have : σ = σ1 := Option.some.inj hd
    exact this ▸ hp
  | EventKey r =>
    simp only [dispatch, dispatchKey_eq] at hd
    split_ifs at hd
    have : σ1 = _ := (Option.some.inj hd).symm
    rw [this]
    exact keyPencil_slotOk σ.st r hp
  | EventMouse px py buttons =>
    have : σ1 = dispatchMouse σ px py buttons := (Option.some.inj hd).symm
    rw [this, dispatchMouse_st]
    exact hp
  | EventOther =>
    have : σ = σ1 := Option.some.inj hd
    exact this ▸ hp

/-- The initial style shows the primary colour. -/
theorem initialPencil_slotOk : SlotOk initialPencil := Or.inl ⟨rfl, rfl⟩

/-- C4: in every session reachable from the initial one the current slot is
one of the two slots, the background of `pencilStyle` is `primaryColor` when
the slot is the primary one, and it is `secondaryColor` when the slot is the
secondary one. -/
theorem style_follows_slot (σ : Session) (hr : Reachable σ) :
    (σ.st.currentColor = "primary" ∨ σ.st.currentColor = "secondary") ∧
    (σ.st.currentColor = "primary" → σ.st.pencilStyle.bg = σ.st.primaryColor) ∧
    (σ.st.currentColor = "secondary" → σ.st.pencilStyle.bg = σ.st.secondaryColor) := by
  obtain ⟨evs, hrun⟩ := hr
  have hne : ¬ ("secondary" = "primary") := by decide
  rcases run_preserves SlotOk dispatch_slotOk evs initialSession σ initialPencil_slotOk hrun
    with ⟨hc, hb⟩ | ⟨hc, hb⟩
  · exact ⟨Or.inl hc, fun _ => hb, fun h2 => absurd (h2.symm.trans hc) hne⟩
  · exact ⟨Or.inr hc, fun h1 => absurd (hc.symm.trans h1) hne, fun _ => hb⟩

/-- C4 on the session reached by the keys `3`, `x`, `5`, `X`, `7`, `x`, whose
current slot is the secondary one: the background of its style is the colour
of key `5`. -/
theorem style_follows_slot_witness :
    (Reachable recolouredSession ∧ recolouredSession.st.currentColor = "secondary") ∧
    recolouredSession.st.pencilStyle.bg = recolouredSession.st.secondaryColor ∧
    recolouredSession.st.secondaryColor = Color.ColorYellow :=
  ⟨⟨⟨recolouredEvents, rfl⟩, rfl⟩,
   (style_follows_slot recolouredSession ⟨recolouredEvents, rfl⟩).2.2 rfl, rfl⟩

/-! ## Keys -/

/-- The colours after the key case are the colours after its colour step. -/
theorem keyPencil_colors (p : PencilState) (r : Char) :
    (keyPencil p r).primaryColor = (onColorKey p r).primaryColor ∧
    (keyPencil p r).secondaryColor = (onColorKey p r).secondaryColor := by
  obtain ⟨-, -, -, -, -, h1, h2⟩ := onSwitchKey_frame (onColorKey p r) r
  unfold keyPencil
  rw [onShrinkKey_eq, onGrowKey_eq, onEraseKey_eq]
  exact ⟨h1, h2⟩

/-- The digits `1` to `8` are keys of `colorKeyMap` and no quit keys. -/
theorem digit_is_color_key (k : Char)
    (hk : k ∈ ['1', '2', '3', '4', '5', '6', '7', '8']) :
    (∃ c, colorKeyMap k = some c) ∧ ¬ (k = 'q' ∨ k = 'Q') := by
  simp only [List.mem_cons, List.mem_singleton, List.not_mem_nil, or_false] at hk
  rcases hk with rfl | rfl | rfl | rfl | rfl | rfl | rfl | rfl <;>
    exact ⟨⟨_, rfl⟩, by decide⟩

/-- C5: for every session and every digit key `1` to `8`, after the dispatch
the colour of the current slot is the entry of `colorKeyMap` for the digit and
the colour of the other slot is as before. -/
theorem digit_sets_current_slot (σ : Session) (k : Char)
    (hk : k ∈ ['1', '2', '3', '4', '5', '6', '7', '8']) :
    ∃ c σ1, colorKeyMap k = some c ∧ dispatch σ (Event.EventKey k) = some σ1 ∧
      (σ.st.currentColor = "primary" →
        σ1.st.primaryColor = c ∧ σ1.st.secondaryColor = σ.st.secondaryColor) ∧
      (σ.st.currentColor ≠ "primary" →
        σ1.st.secondaryColor = c ∧ σ1.st.primaryColor = σ.st.primaryColor) := by
  obtain ⟨⟨c, hc⟩, hq⟩ := digit_is_color_key k hk
  obtain ⟨h1, h2⟩ := keyPencil_colors σ.st k
  refine ⟨c, { st := keyPencil σ.st k, screen := onClearKey σ.screen k }, hc, ?_, ?_, ?_⟩
  · simp only [dispatch, dispatchKey_eq, if_neg hq]
  · intro hcur
    simp only [h1, h2, onColorKey, hc, if_pos hcur, and_self]
  · intro hcur
    simp only [h1, h2, onColorKey, hc, if_neg hcur, and_self]

/-- C5 on the key `5` in a session whose current slot is the secondary one:
the secondary colour becomes yellow, the primary colour stays red. -/
theorem digit_sets_current_slot_witness :
    '5' ∈ ['1', '2', '3', '4', '5', '6', '7', '8'] ∧
    ∃ c σ1, colorKeyMap '5' = some c ∧ dispatch sampleSession (Event.EventKey '5') = some σ1 ∧
      (sampleSession.st.currentColor = "primary" →
        σ1.st.primaryColor = c ∧ σ1.st.secondaryColor = sampleSession.st.secondaryColor) ∧
      (sampleSession.st.currentColor ≠ "primary" →
        σ1.st.secondaryColor = c ∧ σ1.st.primaryColor = sampleSession.st.primaryColor) :=
  ⟨by decide, digit_sets_current_slot sampleSession '5' (by decide)⟩

/-- The key case on a switch key is the switch step alone. -/
theorem keyPencil_switch (p : PencilState) (r : Char) (hr : r = 'x' ∨ r = 'X') :
    keyPencil p r = onSwitchKey p r := by
  have hcol : onColorKey p r = p := by
    rcases hr with rfl | rfl <;> rfl
  have he : ¬ r = 'e' := by rcases hr with rfl | rfl <;> decide
  have hg : ¬ r = ']' := by rcases hr with rfl | rfl <;> decide
  have hs : ¬ r = '[' := by rcases hr with rfl | rfl <;> decide
  unfold keyPencil
  rw [onShrinkKey_eq, onGrowKey_eq, onEraseKey_eq, hcol]
  simp [he, hg, hs]

/-- Switching the slot twice gives back the pencil, when the style was in step
with the slot. -/
theorem onSwitchKey_twice (p : PencilState) (r1 r2 : Char)
    (h1 : r1 = 'x' ∨ r1 = 'X') (h2 : r2 = 'x' ∨ r2 = 'X') (hp : SlotOk p) :
    onSwitchKey (onSwitchKey p r1) r2 = p := by
  obtain ⟨x, y, w, h, e, pc, sc, cur, ⟨fg, bg⟩⟩ := p
  rcases hp with ⟨hc, hb⟩ | ⟨hc, hb⟩
  · simp only at hc hb
    subst hc hb
    simp [onSwitchKey, h1, h2, Style.Background]
  · simp only at hc hb
    subst hc hb
    simp [onSwitchKey, h1, h2, Style.Background]

/-- A pass of the loop on a key that is no quit key. -/
theorem iteration_key (σ : Session) (r : Char) (hq : ¬ (r = 'q' ∨ r = 'Q')) :
    iteration σ (Event.EventKey r)
      = some (overlay { st := keyPencil σ.st r, screen := onClearKey σ.screen r }) := by
  simp only [iteration, dispatch, dispatchKey_eq, if_neg hq, Option.map_some']

/-- C6: in every reachable session, two switch keys (`x` or `X`) in a row give
back the whole pencil: the current slot, `pencilStyle` with its background,
both colours, the size, the position and the erase mode are as before. This
holds for the two dispatches alone, which also leave the surface as it was,
and for two passes of the loop. -/
theorem switch_twice_round_trip (σ : Session) (r1 r2 : Char) (hr : Reachable σ)
    (h1 : r1 = 'x' ∨ r1 = 'X') (h2 : r2 = 'x' ∨ r2 = 'X') :
    (∃ σ1, dispatch σ (Event.EventKey r1) = some σ1 ∧
      dispatch σ1 (Event.EventKey r2) = some σ) ∧
    (∃ σ2, run σ [Event.EventKey r1, Event.EventKey r2] = some σ2 ∧ σ2.st = σ.st) := by
  obtain ⟨evs, hrun⟩ := hr
  have hslot : SlotOk σ.st :=
    run_preserves SlotOk dispatch_slotOk evs initialSession σ initialPencil_slotOk hrun
  have hq1 : ¬ (r1 = 'q' ∨ r1 = 'Q') := by rcases h1 with rfl | rfl <;> decide
  have hq2 : ¬ (r2 = 'q' ∨ r2 = 'Q') := by rcases h2 with rfl | rfl <;> decide
  have hc1 : ¬ (r1 = 'c' ∨ r1 = 'C') := by rcases h1 with rfl | rfl <;> decide
  have hc2 : ¬ (r2 = 'c' ∨ r2 = 'C') := by rcases h2 with rfl | rfl <;> decide
  have hback : keyPencil (keyPencil σ.st r1) r2 = σ.st := by
    rw [keyPencil_switch _ r1 h1, keyPencil_switch _ r2 h2]
    exact onSwitchKey_twice σ.st r1 r2 h1 h2 hslot
  constructor
  · refine ⟨{ st := keyPencil σ.st r1, screen := onClearKey σ.screen r1 }, ?_, ?_⟩
    · simp only [dispatch, dispatchKey_eq, if_neg hq1]
    · simp only [dispatch, dispatchKey_eq, if_neg hq2, hback, onClearKey, if_neg hc1, if_neg hc2]
  · have hrun2 : run σ [Event.EventKey r1, Event.EventKey r2]
        = some (overlay ⟨keyPencil (keyPencil σ.st r1) r2,
            onClearKey (overlay ⟨keyPencil σ.st r1, onClearKey σ.screen r1⟩).screen r2⟩) := by
      simp only [run, iteration_key _ _ hq1, iteration_key _ _ hq2, overlay_st]
    exact ⟨_, hrun2, hback⟩

/-- C6 on the reachable session `recolouredSession`, with `x` then `X`. -/
theorem switch_twice_round_trip_witness :
    (Reachable recolouredSession ∧ ('x' = 'x' ∨ 'x' = 'X') ∧ ('X' = 'x' ∨ 'X' = 'X')) ∧
    (∃ σ1, dispatch recolouredSession (Event.EventKey 'x') = some σ1 ∧
      dispatch σ1 (Event.EventKey 'X') = some recolouredSession) ∧
    (∃ σ2, run recolouredSession [Event.EventKey 'x', Event.EventKey 'X'] = some σ2 ∧
      σ2.st = recolouredSession.st) :=
  ⟨⟨⟨recolouredEvents, rfl⟩, Or.inl rfl, Or.inr rfl⟩,
   switch_twice_round_trip recolouredSession 'x' 'X' ⟨recolouredEvents, rfl⟩
     (Or.inl rfl) (Or.inr rfl)⟩

/-- The key case on `e` negates the erase mode and nothing else. -/
theorem keyPencil_erase (p : PencilState) :
    keyPencil p 'e' = { p with eraseMode := !p.eraseMode } := by
  have hcol : onColorKey p 'e' = p := rfl
  have hsw : onSwitchKey p 'e' = p := by
    unfold onSwitchKey
    rw [if_neg (by decide)]
  unfold keyPencil
  rw [onShrinkKey_eq, onGrowKey_eq, onEraseKey_eq, hcol, hsw]
  simp

/-- After `n` passes on the key `e` the loop is still running and the erase
mode is as before for even `n`, negated for odd `n`; the rest of the pencil is
as before. -/
theorem run_erase (n : Nat) :
    ∀ σ : Session, ∃ σ1, run σ (List.replicate n (Event.EventKey 'e')) = some σ1 ∧
      σ1.st = { σ.st with
        eraseMode := if n % 2 = 0 then σ.st.eraseMode else !σ.st.eraseMode } := by
  induction n with
  | zero =>
    intro σ
    exact ⟨σ, rfl, by simp⟩
  | succ n ih =>
    intro σ
    obtain ⟨σ1, hrun, hst⟩ :=
      ih (overlay { st := keyPencil σ.st 'e', screen := onClearKey σ.screen 'e' })
    refine ⟨σ1, ?_, ?_⟩
    · simp only [List.replicate_succ, run, iteration_key σ 'e' (by decide)]
      exact hrun
    · rw [hst, overlay_st, keyPencil_erase]
      rcases Nat.mod_two_eq_zero_or_one n with h0 | h1
      · have : (n + 1) % 2 = 1 := by omega
        simp [h0, this]
      · have : (n + 1) % 2 = 0 := by omega
        simp [h1, this]

/-- C8: for every session and every `n`, after `2n` presses of `e` the loop is
running and the whole pencil, the erase mode included, is as before the
presses; after `2n + 1` presses the erase mode is negated and every other
variable of the pencil is as before. -/
theorem erase_toggle_parity (σ : Session) (n : Nat) :
    (∃ σ1, run σ (List.replicate (2 * n) (Event.EventKey 'e')) = some σ1 ∧ σ1.st = σ.st) ∧
    (∃ σ1, run σ (List.replicate (2 * n + 1) (Event.EventKey 'e')) = some σ1 ∧
      σ1.st = { σ.st with eraseMode := !σ.st.eraseMode }) := by
  constructor
  · obtain ⟨σ1, hrun, hst⟩ := run_erase (2 * n) σ
    refine ⟨σ1, hrun, ?_⟩
    rw [hst, if_pos (by omega)]
  · obtain ⟨σ1, hrun, hst⟩ := run_erase (2 * n + 1) σ
    refine ⟨σ1, hrun, ?_⟩
    rw [hst, if_neg (by omega)]

/-! ## The button mask -/

/-- C10, as stated, fails: a pointer event in which the primary button is
pressed together with the secondary button paints nothing, where the primary
button alone paints. At the initial session and the cell `(5, 5)`: with both
buttons the cell keeps the blank under the default style, with the primary
button alone it gets the style of the pencil, and the two styles differ. -/
theorem primary_with_secondary_counterexample :
    (Button1 + Button2) &&& Button1 = Button1 ∧
    (dispatch initialSession (Event.EventMouse 5 5 (Button1 + Button2))).map
        (fun σ => σ.screen 5 5) = some ⟨' ', defStyle⟩ ∧
    (dispatch initialSession (Event.EventMouse 5 5 Button1)).map
        (fun σ => σ.screen 5 5) = some ⟨' ', initialPencil.pencilStyle⟩ ∧
    initialPencil.pencilStyle ≠ defStyle := by
  refine ⟨by decide, ?_, ?_, by decide⟩
  · have hb : ¬ ((Button1 + Button2) &&& 0xff = Button1) := by decide
    simp only [dispatch, Option.map_some', Option.some.injEq, dispatchMouse, hb, if_false]
    rfl
  · simp only [dispatch, Option.map_some', Option.some.injEq]
    have hb : Button1 &&& 0xff = Button1 := by decide
    simp only [dispatchMouse, hb, if_true]
    rw [show initialSession.st.eraseMode = false from rfl]
    simp only [Bool.false_eq_true, if_false, drawBox_apply]
    rw [if_pos (by decide)]
    rfl

/-- C10, amended: the wheel bits of the button mask are ignored, so a pointer
event whose eight button bits are the primary button alone does exactly what
the primary button without wheel bits does, whichever wheel bits are set; a
pointer event whose eight button bits are anything else (the primary button
together with another button, say) leaves the surface as it was; and every
pointer event sets the position to its coordinate. -/
theorem wheel_bits_ignored (σ : Session) (px py : Int) (wheel : Nat) (b : ButtonMask) :
    dispatch σ (Event.EventMouse px py (Button1 + 256 * wheel))
      = dispatch σ (Event.EventMouse px py Button1) ∧
    (b &&& 0xff ≠ Button1 →
      ∃ σ1, dispatch σ (Event.EventMouse px py b) = some σ1 ∧ σ1.screen = σ.screen) ∧
    (∃ σ1, dispatch σ (Event.EventMouse px py b) = some σ1 ∧
      σ1.st = { σ.st with x := px, y := py }) := by
  refine ⟨?_, ?_, ?_⟩
  · have h1 : (Button1 + 256 * wheel) &&& 0xff = Button1 := by
      rw [mask_eq_mod]
      show (1 + 256 * wheel) % 256 = 1
      omega
    have h2 : Button1 &&& 0xff = Button1 := by decide
    simp only [dispatch, dispatchMouse, h1, h2]
  · intro hb
    refine ⟨dispatchMouse σ px py b, rfl, ?_⟩
    simp only [dispatchMouse, hb, if_false]
  · exact ⟨dispatchMouse σ px py b, rfl, dispatchMouse_st σ px py b⟩

/-- C10 amended, at the sample session: the wheel-up bit besides the primary
button changes nothing; the secondary button besides the primary one leaves
the surface alone; the position is set. -/
theorem wheel_bits_ignored_witness :
    (Button1 + Button2) &&& 0xff ≠ Button1 ∧
    dispatch sampleSession (Event.EventMouse 10 10 (Button1 + 256 * 1))
      = dispatch sampleSession (Event.EventMouse 10 10 Button1) ∧
    (∃ σ1, dispatch sampleSession (Event.EventMouse 10 10 (Button1 + Button2)) = some σ1 ∧
      σ1.screen = sampleSession.screen) ∧
    (∃ σ1, dispatch sampleSession (Event.EventMouse 10 10 (Button1 + Button2)) = some σ1 ∧
      σ1.st = { sampleSession.st with x := 10, y := 10 }) :=
  ⟨by decide,
   (wheel_bits_ignored sampleSession 10 10 1 (Button1 + Button2)).1,
   (wheel_bits_ignored sampleSession 10 10 1 (Button1 + Button2)).2.1 (by decide),
   (wheel_bits_ignored sampleSession 10 10 1 (Button1 + Button2)).2.2⟩

/-! ## The renderer: `drawText`, and `drawBox` against a single fill pass -/

/-- The loop of `drawText`, read at a cell. -/
theorem drawTextRunes_apply (style : Style) (y : Int) (cs : List Char) :
    ∀ (s : Screen) (x cx cy : Int),
      drawTextRunes s x y style cs cx cy = (textCell cs x y style cx cy).getD (s cx cy) := by
  induction cs with
  | nil =>
    intro s x cx cy
    unfold textCell
    split_ifs <;> rfl
  | cons c cs ih =>
    intro s x cx cy
    show drawTextRunes (SetCell s x y style c) (x + 1) y style cs cx cy = _
    rw [ih, SetCell_apply]
    unfold textCell
    rcases lt_trichotomy cx x with hlt | heq | hgt
    · have h1 : ¬ (cy = y ∧ x + 1 ≤ cx) := by omega
      have h2 : ¬ (cx = x ∧ cy = y) := by omega
      have h3 : ¬ (cy = y ∧ x ≤ cx) := by omega
      simp only [if_neg h1, if_neg h2, if_neg h3]
    · have h1 : ¬ (cy = y ∧ x + 1 ≤ cx) := by omega
      by_cases hy : cy = y
      · have h2 : cx = x ∧ cy = y := ⟨heq, hy⟩
        have h3 : cy = y ∧ x ≤ cx := ⟨hy, by omega⟩
        have hidx : (cx - x).toNat = 0 := by omega
        simp only [if_neg h1, if_pos h2, if_pos h3, hidx, List.getElem?_cons_zero,
          Option.map_some', Option.getD_some, Option.getD_none]
      · have h2 : ¬ (cx = x ∧ cy = y) := fun h => hy h.2
        have h3 : ¬ (cy = y ∧ x ≤ cx) := fun h => hy h.1
        simp only [if_neg h1, if_neg h2, if_neg h3]
    · have h2 : ¬ (cx = x ∧ cy = y) := by omega
      have hidx : (cx - x).toNat = (cx - (x + 1)).toNat + 1 := by omega
      by_cases hy : cy = y
      · have h1 : cy = y ∧ x + 1 ≤ cx := ⟨hy, by omega⟩
        have h3 : cy = y ∧ x ≤ cx := ⟨hy, by omega⟩
        simp only [if_pos h1, if_neg h2, if_pos h3, hidx, List.getElem?_cons_succ]
      · have h1 : ¬ (cy = y ∧ x + 1 ≤ cx) := fun h => hy h.1
        have h3 : ¬ (cy = y ∧ x ≤ cx) := fun h => hy h.1
        simp only [if_neg h1, if_neg h2, if_neg h3]

/-- C15: `drawText` sets the cell `(x+i, y)` to the `i`-th rune of the text
under the given style, for every position `i` of the text, one column per
rune with no wrapping or clamping, and leaves every other cell of the surface
as it was; the empty text changes nothing. -/
theorem drawText_writes_text (s : Screen) (x y : Int) (style : Style) (text : String) :
    (∀ (i : Nat) (c : Char), text.toList[i]? = some c →
      drawText s x y style text (x + i) y = ⟨c, style⟩) ∧
    (∀ cx cy : Int, ¬ (cy = y ∧ x ≤ cx ∧ cx < x + text.length) →
      drawText s x y style text cx cy = s cx cy) ∧
    drawText s x y style "" = s := by
  refine ⟨?_, ?_, rfl⟩
  · intro i c hc
    unfold drawText
    rw [drawTextRunes_apply]
    unfold textCell
    rw [if_pos ⟨rfl, by omega⟩]
    have hidx : (x + (i : Int) - x).toNat = i := by omega
    rw [hidx, hc]
    rfl
  · intro cx cy hout
    unfold drawText
    rw [drawTextRunes_apply]
    unfold textCell
    by_cases hrow : cy = y ∧ x ≤ cx
    · rw [if_pos hrow]
      have hlen : text.toList.length ≤ (cx - x).toNat := by
        have h1 : ¬ cx < x + text.length := fun h => hout ⟨hrow.1, hrow.2, h⟩
        have h2 : text.toList.length = text.length := rfl
        omega
      rw [List.getElem?_eq_none hlen]
      rfl
    · rw [if_neg hrow]
      rfl

/-- C15 on the text `hi` drawn at `(7, 2)` on a striped surface. -/
theorem drawText_writes_text_witness :
    ("hi".toList[1]? = some 'i' ∧ ¬ ((2 : Int) = 2 ∧ (7 : Int) ≤ 9 ∧ (9 : Int) < 7 + "hi".length)) ∧
    drawText stripedScreen 7 2 defStyle "hi" (7 + (1 : Nat)) 2 = ⟨'i', defStyle⟩ ∧
    drawText stripedScreen 7 2 defStyle "hi" 9 2 = stripedScreen 9 2 :=
  ⟨⟨rfl, by decide⟩,
   (drawText_writes_text stripedScreen 7 2 defStyle "hi").1 1 'i' rfl,
   (drawText_writes_text stripedScreen 7 2 defStyle "hi").2.1 9 2 (by decide)⟩

/-- C16: for every surface, anchor, style and every integers `w` and `h`, the
two passes of `drawBox` (fill, then border) yield the same surface as the
single fill pass of the specification, and so does the fill pass of `drawBox`
alone; when `w ≤ 0` or `h ≤ 0` the surface is as it was. -/
theorem drawBox_eq_singleFill (s : Screen) (x y w h : Int) (style : Style) :
    drawBox s x y w h style = singleFill s x y w h style ∧
    drawBoxFill s x y w h style = singleFill s x y w h style ∧
    (w ≤ 0 ∨ h ≤ 0 → drawBox s x y w h style = s) := by
  refine ⟨?_, ?_, ?_⟩
  · funext cx cy
    rw [drawBox_apply]
    rfl
  · funext cx cy
    rw [drawBoxFill_apply]
    rfl
  · intro hwh
    funext cx cy
    rw [drawBox_apply, if_neg]
    omega

/-- C16 on a 3 × 2 box and on a box of width `-1`, on a striped surface. -/
theorem drawBox_eq_singleFill_witness :
    ((-1 : Int) ≤ 0 ∨ (4 : Int) ≤ 0) ∧
    drawBox stripedScreen 5 6 3 2 defStyle = singleFill stripedScreen 5 6 3 2 defStyle ∧
    drawBox stripedScreen 5 6 (-1) 4 defStyle = stripedScreen :=
  ⟨Or.inl (by decide),
   (drawBox_eq_singleFill stripedScreen 5 6 3 2 defStyle).1,
   (drawBox_eq_singleFill stripedScreen 5 6 (-1) 4 defStyle).2.2 (Or.inl (by decide))⟩

/-! ## The overlay redraw -/

/-- Reading a default through an alternative of two optional cells. -/
theorem getD_orElse (a b : Option Cell) (d : Cell) :
    (a <|> b).getD d = a.getD (b.getD d) := by
  cases a <;> simp

/-- `drawText`, read at a cell. -/
theorem drawText_apply (s : Screen) (x y : Int) (style : Style) (text : String)
    (cx cy : Int) :
    drawText s x y style text cx cy = (textCell text.toList x y style cx cy).getD (s cx cy) :=
  drawTextRunes_apply style y text.toList s x cx cy

/-- The overlay redraw, read at a cell: what `overlayCell` gives, or the cell
as it was. -/
theorem overlayScreen_apply (p : PencilState) (s : Screen) (cx cy : Int) :
    overlayScreen p s cx cy = (overlayCell p cx cy).getD (s cx cy) := by
  unfold overlayScreen overlayCell
  by_cases hc : p.currentColor = "primary"
  · simp only [if_pos hc, drawText_apply, getD_orElse]
  · simp only [if_neg hc, drawText_apply, getD_orElse]

/-- A text reaches a cell exactly on its row, from its first column, for its
length. -/
theorem textCell_eq_none_iff (cs : List Char) (x y : Int) (style : Style) (cx cy : Int) :
    textCell cs x y style cx cy = none ↔ ¬ (cy = y ∧ x ≤ cx ∧ cx < x + cs.length) := by
  unfold textCell
  by_cases hrow : cy = y ∧ x ≤ cx
  · rw [if_pos hrow, Option.map_eq_none', List.getElem?_eq_none_iff]
    constructor
    · intro hlen hin
      omega
    · intro hout
      have : ¬ cx < x + cs.length := fun h => hout ⟨hrow.1, hrow.2, h⟩
      omega
  · rw [if_neg hrow]
    exact ⟨fun _ h => hrow ⟨h.1, h.2.1⟩, fun _ => rfl⟩

/-- C18: the overlay redraw is idempotent: for every pencil and every surface,
redrawing the overlay (legend, position and size line, swatch pair, status
line) twice with the same pencil gives the surface of one redraw, and a redraw
leaves the pencil as it was. -/
theorem overlay_idempotent (p : PencilState) (s : Screen) (σ : Session) :
    overlayScreen p (overlayScreen p s) = overlayScreen p s ∧
    overlay (overlay σ) = overlay σ ∧
    (overlay σ).st = σ.st := by
  have hscreen : ∀ (q : PencilState) (t : Screen),
      overlayScreen q (overlayScreen q t) = overlayScreen q t := by
    intro q t
    funext cx cy
    rw [overlayScreen_apply q (overlayScreen q t), overlayScreen_apply q t]
    cases overlayCell q cx cy <;> rfl
  refine ⟨hscreen p s, ?_, rfl⟩
  show Session.mk σ.st (overlayScreen σ.st (overlayScreen σ.st σ.screen))
    = Session.mk σ.st (overlayScreen σ.st σ.screen)
  rw [hscreen]

/-- On an event that is no quit key the dispatch yields a session and the pass
of the loop is the overlay redraw of it. -/
theorem iteration_of_not_quits (σ : Session) (ev : Event) (hq : quits ev = false) :
    ∃ σ1, dispatch σ ev = some σ1 ∧ iteration σ ev = some (overlay σ1) := by
  cases ev with
  | EventResize => exact ⟨σ, rfl, rfl⟩
  | EventKey r =>
    have hr : ¬ (r = 'q' ∨ r = 'Q') := by
      intro h
      simp [quits, h] at hq
    exact ⟨_, by simp only [dispatch, dispatchKey_eq, if_neg hr], iteration_key σ r hr⟩
  | EventMouse px py buttons => exact ⟨dispatchMouse σ px py buttons, rfl, rfl⟩
  | EventOther => exact ⟨σ, rfl, rfl⟩

/-- The first swatch cell of the overlay. -/
theorem overlayCell_swatch_primary (p : PencilState) :
    overlayCell p 0 2
      = some ⟨' ', if p.currentColor = "primary" then p.pencilStyle
                   else p.pencilStyle.Background p.primaryColor⟩ := by
  simp [overlayCell, textCell]

/-- The second swatch cell of the overlay. -/
theorem overlayCell_swatch_secondary (p : PencilState) :
    overlayCell p 1 2 = some ⟨' ', p.pencilStyle.Background p.secondaryColor⟩ := by
  simp [overlayCell, textCell]

/-- C17: in every reachable session, after the overlay redraw of a pass of the
loop (on any event that is no quit key), the cell `(0, 2)` holds a blank whose
background is `primaryColor` and the cell `(1, 2)` holds a blank whose
background is `secondaryColor`, whichever slot is the current one. -/
theorem swatch_shows_both_slots (σ : Session) (ev : Event)
    (hr : Reachable σ) (hq : quits ev = false) :
    ∃ σ2, iteration σ ev = some σ2 ∧
      (σ2.screen 0 2).ch = ' ' ∧ (σ2.screen 0 2).style.bg = σ2.st.primaryColor ∧
      (σ2.screen 1 2).ch = ' ' ∧ (σ2.screen 1 2).style.bg = σ2.st.secondaryColor := by
  obtain ⟨evs, hrun⟩ := hr
  have hslot : SlotOk σ.st :=
    run_preserves SlotOk dispatch_slotOk evs initialSession σ initialPencil_slotOk hrun
  obtain ⟨σ1, hd, hit⟩ := iteration_of_not_quits σ ev hq
  have hslot1 : SlotOk σ1.st := dispatch_slotOk σ ev σ1 hslot hd
  have h0 : (overlay σ1).screen 0 2
      = ⟨' ', if σ1.st.currentColor = "primary" then σ1.st.pencilStyle
              else σ1.st.pencilStyle.Background σ1.st.primaryColor⟩ := by
    show overlayScreen σ1.st σ1.screen 0 2 = _
    rw [overlayScreen_apply, overlayCell_swatch_primary]
    rfl
  have h1 : (overlay σ1).screen 1 2
      = ⟨' ', σ1.st.pencilStyle.Background σ1.st.secondaryColor⟩ := by
    show overlayScreen σ1.st σ1.screen 1 2 = _
    rw [overlayScreen_apply, overlayCell_swatch_secondary]
    rfl
  refine ⟨overlay σ1, hit, ?_, ?_, ?_, ?_⟩
  · rw [h0]
  · rw [h0, overlay_st]
    rcases hslot1 with ⟨hc, hb⟩ | ⟨hc, _⟩
    · simp only [if_pos hc]
      exact hb
    · have hne : ¬ σ1.st.currentColor = "primary" := by rw [hc]; decide
      simp only [if_neg hne]
      rfl
  · rw [h1]
  · rw [h1]
    rfl

/-- C17 on the reachable session `recolouredSession` (secondary slot current,
primary colour of key `7`, secondary colour of key `5`) after a resize. -/
theorem swatch_shows_both_slots_witness :
    (Reachable recolouredSession ∧ quits Event.EventResize = false) ∧
    ∃ σ2, iteration recolouredSession Event.EventResize = some σ2 ∧
      (σ2.screen 0 2).ch = ' ' ∧ (σ2.screen 0 2).style.bg = σ2.st.primaryColor ∧
      (σ2.screen 1 2).ch = ' ' ∧ (σ2.screen 1 2).style.bg = σ2.st.secondaryColor :=
  ⟨⟨⟨recolouredEvents, rfl⟩, rfl⟩,
   swatch_shows_both_slots recolouredSession Event.EventResize ⟨recolouredEvents, rfl⟩ rfl⟩

/-! ## Keys that are no colour keys, unrecognised input, the clear key -/

/-- A rune other than the digits `1` to `8` is no key of `colorKeyMap`. -/
theorem colorKeyMap_none (r : Char)
    (hr : r ∉ ['1', '2', '3', '4', '5', '6', '7', '8']) : colorKeyMap r = none := by
  simp only [List.mem_cons, List.mem_singleton, List.not_mem_nil, or_false, not_or] at hr
  obtain ⟨h1, h2, h3, h4, h5, h6, h7, h8⟩ := hr
  have b1 : (r == '1') = false := beq_eq_false_iff_ne.2 h1
  have b2 : (r == '2') = false := beq_eq_false_iff_ne.2 h2
  have b3 : (r == '3') = false := beq_eq_false_iff_ne.2 h3
  have b4 : (r == '4') = false := beq_eq_false_iff_ne.2 h4
  have b5 : (r == '5') = false := beq_eq_false_iff_ne.2 h5
  have b6 : (r == '6') = false := beq_eq_false_iff_ne.2 h6
  have b7 : (r == '7') = false := beq_eq_false_iff_ne.2 h7
  have b8 : (r == '8') = false := beq_eq_false_iff_ne.2 h8
  simp only [colorKeyMap, colorKeyTable, List.lookup, b1, b2, b3, b4, b5, b6, b7, b8]

/-- The colour step on a rune that is no key of `colorKeyMap` does nothing. -/
theorem onColorKey_none (p : PencilState) (r : Char) (hc : colorKeyMap r = none) :
    onColorKey p r = p := by
  unfold onColorKey
  rw [hc]

/-- The key case leaves the pencil as it was on a rune that no step handles. -/
theorem keyPencil_ignored (p : PencilState) (r : Char) (hc : colorKeyMap r = none)
    (hx : ¬ (r = 'x' ∨ r = 'X')) (he : ¬ r = 'e') (hg : ¬ r = ']') (hs : ¬ r = '[') :
    keyPencil p r = p := by
  have hsw : onSwitchKey p r = p := by
    unfold onSwitchKey
    rw [if_neg hx]
  unfold keyPencil
  rw [onShrinkKey_eq, onGrowKey_eq, onEraseKey_eq, onColorKey_none p r hc, hsw]
  simp [he, hg, hs]

/-- The key case never moves the position. -/
theorem keyPencil_position (p : PencilState) (r : Char) :
    (keyPencil p r).x = p.x ∧ (keyPencil p r).y = p.y := by
  obtain ⟨hx1, hy1, -, -, -, -⟩ := onColorKey_frame p r
  obtain ⟨hx2, hy2, -, -, -, -, -⟩ := onSwitchKey_frame (onColorKey p r) r
  unfold keyPencil
  rw [onShrinkKey_eq, onGrowKey_eq, onEraseKey_eq]
  exact ⟨hx2.trans hx1, hy2.trans hy1⟩

/-- C11: `colorKeyMap` has exactly the 8 keys `1` to `8`; for every session
and every key whose rune is not one of them (`9` and `0` included) the colour
step assigns nothing, so both colours are as before when `quit()` is reached
on `q` or `Q`, and for every other such rune the dispatch yields a session
whose `primaryColor` and `secondaryColor` are as before. -/
theorem non_digit_keeps_colors (σ : Session) (r : Char)
    (hr : r ∉ ['1', '2', '3', '4', '5', '6', '7', '8']) :
    colorKeyTable.length = 8 ∧
    (∀ k : Char, (∃ c, colorKeyMap k = some c) ↔ k ∈ ['1', '2', '3', '4', '5', '6', '7', '8']) ∧
    (onSwitchKey (onColorKey σ.st r) r).primaryColor = σ.st.primaryColor ∧
    (onSwitchKey (onColorKey σ.st r) r).secondaryColor = σ.st.secondaryColor ∧
    (¬ (r = 'q' ∨ r = 'Q') →
      ∃ σ1, dispatch σ (Event.EventKey r) = some σ1 ∧
        σ1.st.primaryColor = σ.st.primaryColor ∧
        σ1.st.secondaryColor = σ.st.secondaryColor) := by
  have hnone := colorKeyMap_none r hr
  obtain ⟨-, -, -, -, -, hp, hs⟩ := onSwitchKey_frame (onColorKey σ.st r) r
  rw [onColorKey_none σ.st r hnone] at hp hs
  refine ⟨rfl, ?_, ?_, ?_, ?_⟩
  · intro k
    constructor
    · rintro ⟨c, hc⟩
      by_contra hk
      rw [colorKeyMap_none k hk] at hc
      exact absurd hc (by simp)
    · intro hk
      exact (digit_is_color_key k hk).1
  · rw [onColorKey_none σ.st r hnone]
    exact hp
  · rw [onColorKey_none σ.st r hnone]
    exact hs
  · intro hq
    obtain ⟨h1, h2⟩ := keyPencil_colors σ.st r
    refine ⟨{ st := keyPencil σ.st r, screen := onClearKey σ.screen r }, ?_, ?_, ?_⟩
    · simp only [dispatch, dispatchKey_eq, if_neg hq]
    · show (keyPencil σ.st r).primaryColor = _
      rw [h1, onColorKey_none σ.st r hnone]
    · show (keyPencil σ.st r).secondaryColor = _
      rw [h2, onColorKey_none σ.st r hnone]

/-- C11 on the key `9` in the sample session. -/
theorem non_digit_keeps_colors_witness :
    ('9' ∉ ['1', '2', '3', '4', '5', '6', '7', '8'] ∧ ¬ ('9' = 'q' ∨ '9' = 'Q')) ∧
    colorKeyMap '9' = none ∧ colorKeyMap '0' = none ∧
    ∃ σ1, dispatch sampleSession (Event.EventKey '9') = some σ1 ∧
      σ1.st.primaryColor = sampleSession.st.primaryColor ∧
      σ1.st.secondaryColor = sampleSession.st.secondaryColor :=
  ⟨⟨by decide, by decide⟩, rfl, rfl,
   (non_digit_keeps_colors sampleSession '9' (by decide)).2.2.2.2 (by decide)⟩

/-- C12: unrecognised input is discarded: a key whose rune is none of `1` to
`8`, `x`, `X`, `q`, `Q`, `c`, `C`, `e`, `]`, `[` and a resize each yield the
very session they were given (the whole pencil and the surface as before, the
loop not ended), and no key that yields a session moves the position. -/
theorem unrecognised_input_discarded (σ : Session) (r : Char)
    (hr : r ∉ ['1', '2', '3', '4', '5', '6', '7', '8',
               'x', 'X', 'q', 'Q', 'c', 'C', 'e', ']', '[']) :
    dispatch σ (Event.EventKey r) = some σ ∧
    dispatch σ Event.EventResize = some σ ∧
    (∀ (k : Char) (σ1 : Session), dispatch σ (Event.EventKey k) = some σ1 →
      σ1.st.x = σ.st.x ∧ σ1.st.y = σ.st.y) := by
  refine ⟨?_, rfl, ?_⟩
  · simp only [List.mem_cons, List.mem_singleton, List.not_mem_nil, or_false, not_or] at hr
    obtain ⟨h1, h2, h3, h4, h5, h6, h7, h8, hx, hX, hq, hQ, hc, hC, he, hg, hs⟩ := hr
    have hnone : colorKeyMap r = none := colorKeyMap_none r (by simp [h1, h2, h3, h4, h5, h6, h7, h8])
    have hquit : ¬ (r = 'q' ∨ r = 'Q') := fun h => h.elim hq hQ
    have hclear : ¬ (r = 'c' ∨ r = 'C') := fun h => h.elim hc hC
    have hswitch : ¬ (r = 'x' ∨ r = 'X') := fun h => h.elim hx hX
    simp only [dispatch, dispatchKey_eq, if_neg hquit,
      keyPencil_ignored σ.st r hnone hswitch he hg hs, onClearKey, if_neg hclear]
  · intro k σ1 hd
    simp only [dispatch, dispatchKey_eq] at hd
    split_ifs at hd
    have h1 : σ1 = _ := (Option.some.inj hd).symm
    rw [h1]
    exact keyPencil_position σ.st k

/-- C12 on the key `E` and on a key with no rune, in the sample session. -/
theorem unrecognised_input_discarded_witness :
    ('E' ∉ ['1', '2', '3', '4', '5', '6', '7', '8',
            'x', 'X', 'q', 'Q', 'c', 'C', 'e', ']', '['] ∧
     Char.ofNat 0 ∉ ['1', '2', '3', '4', '5', '6', '7', '8',
            'x', 'X', 'q', 'Q', 'c', 'C', 'e', ']', '[']) ∧
    dispatch sampleSession (Event.EventKey 'E') = some sampleSession ∧
    dispatch sampleSession (Event.EventKey (Char.ofNat 0)) = some sampleSession :=
  ⟨⟨by decide, by decide⟩,
   (unrecognised_input_discarded sampleSession 'E' (by decide)).1,
   (unrecognised_input_discarded sampleSession (Char.ofNat 0) (by decide)).1⟩

/-- C13: for every session, the key `c` or `C` yields a session whose every
cell is a blank under the default style and whose pencil is as before, and
the pass of the loop on that key redraws the overlay from that same pencil on
the cleared surface. -/
theorem clear_key_resets_surface (σ : Session) (r : Char) (hr : r = 'c' ∨ r = 'C') :
    ∃ σ1, dispatch σ (Event.EventKey r) = some σ1 ∧
      σ1.st = σ.st ∧
      (∀ cx cy : Int, σ1.screen cx cy = ⟨' ', defStyle⟩) ∧
      ∃ σ2, iteration σ (Event.EventKey r) = some σ2 ∧
        σ2.st = σ.st ∧ σ2.screen = overlayScreen σ.st σ1.screen := by
  have hnone : colorKeyMap r = none := by rcases hr with rfl | rfl <;> rfl
  have hquit : ¬ (r = 'q' ∨ r = 'Q') := by rcases hr with rfl | rfl <;> decide
  have hswitch : ¬ (r = 'x' ∨ r = 'X') := by rcases hr with rfl | rfl <;> decide
  have he : ¬ r = 'e' := by rcases hr with rfl | rfl <;> decide
  have hg : ¬ r = ']' := by rcases hr with rfl | rfl <;> decide
  have hs : ¬ r = '[' := by rcases hr with rfl | rfl <;> decide
  have hkey := keyPencil_ignored σ.st r hnone hswitch he hg hs
  refine ⟨⟨σ.st, Clear σ.screen⟩, ?_, rfl, fun _ _ => rfl, overlay ⟨σ.st, Clear σ.screen⟩, ?_, rfl, rfl⟩
  · simp only [dispatch, dispatchKey_eq, if_neg hquit, hkey, onClearKey, if_pos hr]
  · rw [iteration_key σ r hquit, hkey]
    simp only [onClearKey, if_pos hr]

/-- C13 on the key `C` in the erase session, whose surface was all yellow. -/
theorem clear_key_resets_surface_witness :
    ('C' = 'c' ∨ 'C' = 'C') ∧
    ∃ σ1, dispatch eraseSession (Event.EventKey 'C') = some σ1 ∧
      σ1.st = eraseSession.st ∧
      (∀ cx cy : Int, σ1.screen cx cy = ⟨' ', defStyle⟩) ∧
      ∃ σ2, iteration eraseSession (Event.EventKey 'C') = some σ2 ∧
        σ2.st = eraseSession.st ∧ σ2.screen = overlayScreen eraseSession.st σ1.screen :=
  ⟨Or.inr rfl, clear_key_resets_surface eraseSession 'C' (Or.inr rfl)⟩

/-! ## Scenario A, and the position and size line -/

/-- A cell the overlay does not write gets nothing from `overlayCell`. -/
theorem overlayCell_outside (p : PencilState) (cx cy : Int)
    (hout : ¬ overlayWrites p cx cy) : overlayCell p cx cy = none := by
  unfold overlayWrites at hout
  simp only [not_or] at hout
  obtain ⟨h0, h1, h2, h3⟩ := hout
  have l0 : helpText.toList.length = helpText.length := rfl
  have l1 : (infoText p).toList.length = (infoText p).length := rfl
  have l3 : (statusText p).toList.length = (statusText p).length := rfl
  have l2 : " ".toList.length = 1 := rfl
  have e3 : textCell (statusText p).toList 0 3 defStyle cx cy = none :=
    (textCell_eq_none_iff _ _ _ _ _ _).2 (fun hh => h3 ⟨hh.1, hh.2.1, by omega⟩)
  have e2b : ∀ st : Style, textCell " ".toList 1 2 st cx cy = none := fun st =>
    (textCell_eq_none_iff _ _ _ _ _ _).2 (fun hh => h2 ⟨hh.1, Or.inr (by omega)⟩)
  have e2a : ∀ st : Style, textCell " ".toList 0 2 st cx cy = none := fun st =>
    (textCell_eq_none_iff _ _ _ _ _ _).2 (fun hh => h2 ⟨hh.1, Or.inl (by omega)⟩)
  have e1 : textCell (infoText p).toList 0 1 defStyle cx cy = none :=
    (textCell_eq_none_iff _ _ _ _ _ _).2 (fun hh => h1 ⟨hh.1, hh.2.1, by omega⟩)
  have e0 : textCell helpText.toList 0 0 defStyle cx cy = none :=
    (textCell_eq_none_iff _ _ _ _ _ _).2 (fun hh => h0 ⟨hh.1, hh.2.1, by omega⟩)
  unfold overlayCell
  rw [e3, e2b, e2a, e1, e0]
  rfl

/-- The overlay redraw leaves a cell it does not write as it was. -/
theorem overlayScreen_outside (p : PencilState) (s : Screen) (cx cy : Int)
    (hout : ¬ overlayWrites p cx cy) : overlayScreen p s cx cy = s cx cy := by
  rw [overlayScreen_apply, overlayCell_outside p cx cy hout]
  rfl

/-- C14: from the initial session (position `(0,0)`, size 1 × 1, erase off,
primary slot, both colours the entry of key `1`, every cell a blank under the
default style), the key `3` and then a primary-button click at `(5, 5)` leave
`primaryColor` the entry of key `3`, which is red; the cell `(5, 5)`, which no
overlay redraw writes, holds a blank whose background is red and so differs
from the cleared surface; every other cell that neither overlay redraw writes
is as on the cleared surface. -/
theorem scenario_A_paints_one_cell :
    (initialSession.st = ⟨0, 0, 1, 1, false, Color.ColorWhite, Color.ColorWhite, "primary",
        ⟨Color.ColorBlack, Color.ColorWhite⟩⟩ ∧
      colorKeyMap '1' = some Color.ColorWhite ∧
      ∀ cx cy : Int, initialSession.screen cx cy = ⟨' ', defStyle⟩) ∧
    run initialSession scenarioAEvents = some scenarioASession ∧
    colorKeyMap '3' = some Color.ColorRed ∧
    scenarioASession.st.primaryColor = Color.ColorRed ∧
    (¬ overlayWrites scenarioAMid.st 5 5 ∧ ¬ overlayWrites scenarioASession.st 5 5) ∧
    scenarioASession.screen 5 5 = ⟨' ', ⟨Color.ColorBlack, Color.ColorRed⟩⟩ ∧
    scenarioASession.screen 5 5 ≠ initialSession.screen 5 5 ∧
    (∀ cx cy : Int, ¬ overlayWrites scenarioAMid.st cx cy →
      ¬ overlayWrites scenarioASession.st cx cy → ¬ (cx = 5 ∧ cy = 5) →
      scenarioASession.screen cx cy = initialSession.screen cx cy) := by
  have hshape : ∀ cx cy : Int, scenarioASession.screen cx cy
      = overlayScreen scenarioASession.st
          (drawBox (overlayScreen scenarioAMid.st initialSession.screen) 5 5 1 1
            ⟨Color.ColorBlack, Color.ColorRed⟩) cx cy := fun _ _ => rfl
  have hno1 : ¬ overlayWrites scenarioAMid.st 5 5 := by
    unfold overlayWrites
    omega
  have hno2 : ¬ overlayWrites scenarioASession.st 5 5 := by
    unfold overlayWrites
    omega
  have hcell : scenarioASession.screen 5 5 = ⟨' ', ⟨Color.ColorBlack, Color.ColorRed⟩⟩ := by
    rw [hshape, overlayScreen_outside _ _ 5 5 hno2, drawBox_apply, if_pos (by omega)]
  refine ⟨⟨rfl, rfl, fun _ _ => rfl⟩, rfl, rfl, rfl, ⟨hno1, hno2⟩, hcell, ?_, ?_⟩
  · rw [hcell]
    decide
  · intro cx cy h1 h2 h55
    rw [hshape, overlayScreen_outside _ _ cx cy h2, drawBox_apply, if_neg (by omega),
      overlayScreen_outside _ _ cx cy h1]

/-- C19 fails on the code at the pointer moves `(100, 100)` then `(1, 1)`:
after the first pass row 1 reads `100, 100 | 1, 1` and three blanks; after the
second pass the current text is `1, 1 | 1, 1` with its three blanks on the
columns 0 to 13, and the cell at column 14 of row 1, to the right of the
text, still holds the glyph `1` of the line of the frame before. -/
theorem info_line_keeps_stale_glyph :
    run initialSession staleEvents = some staleSession ∧
    infoText staleMid.st = "100, 100 | 1, 1   " ∧
    infoText staleSession.st = "1, 1 | 1, 1   " ∧
    (infoText staleSession.st).length = 14 ∧
    (staleMid.screen 14 1).ch = '1' ∧
    (staleSession.screen 14 1).ch = '1' ∧
    (staleSession.screen 14 1).ch ≠ ' ' := by
  have hmid : (staleMid.screen 14 1).ch = '1' := by
    show (overlayScreen staleMid.st initialSession.screen 14 1).ch = '1'
    rw [overlayScreen_apply]
    rfl
  have hfin : (staleSession.screen 14 1).ch = '1' := by
    show (overlayScreen staleSession.st staleMid.screen 14 1).ch = '1'
    have hout : ¬ overlayWrites staleSession.st 14 1 := by
      have hlen : (infoText staleSession.st).length = 14 := by decide
      unfold overlayWrites
      rw [hlen]
      omega
    rw [overlayScreen_outside _ _ 14 1 hout]
    exact hmid
  refine ⟨rfl, by decide, by decide, by decide, hmid, hfin, ?_⟩
  rw [hfin]
  decide

/-! ## The status line -/

/-- A property of the session that every pass of the loop preserves holds along
every run of the loop. -/
theorem run_preserves_session (J : Session → Prop)
    (hstep : ∀ (σ : Session) (ev : Event) (σ2 : Session),
      J σ → iteration σ ev = some σ2 → J σ2) :
    ∀ (evs : List Event) (σ σ2 : Session), J σ → run σ evs = some σ2 → J σ2 := by
  intro evs
  induction evs with
  | nil =>
    intro σ σ2 hJ hrun
    have : σ = σ2 := Option.some.inj hrun
    exact this ▸ hJ
  | cons ev evs ih =>
    intro σ σ2 hJ hrun
    unfold run at hrun
    cases hit : iteration σ ev with
    | none => rw [hit] at hrun; exact absurd hrun (by simp)
    | some σ1 =>
      rw [hit] at hrun
      exact ih σ1 σ2 (hstep σ ev σ1 hJ hit) hrun

/-- The status text is its core followed by three blanks. -/
theorem statusText_toList (p : PencilState) :
    (statusText p).toList = (statusCore p).toList ++ [' ', ' ', ' '] :=
  String.data_append (statusCore p) "   "

/-- With the slot one of the two, the core of the status text has 14 to 17
runes. -/
theorem statusCore_length (p : PencilState) (hp : SlotOk p) :
    14 ≤ (statusCore p).length ∧ (statusCore p).length ≤ 17 := by
  unfold statusCore
  rcases hp with ⟨hc, _⟩ | ⟨hc, _⟩ <;> rw [hc] <;> cases p.eraseMode <;> decide

/-- A dispatch leaves in every cell a blank glyph or the cell as it was. -/
theorem dispatch_glyph (σ : Session) (ev : Event) (σ1 : Session)
    (hd : dispatch σ ev = some σ1) (cx cy : Int) :
    (σ1.screen cx cy).ch = ' ' ∨ σ1.screen cx cy = σ.screen cx cy := by
  cases ev with
  | EventResize =>
    have : σ = σ1 := Option.some.inj hd
    exact Or.inr (this ▸ rfl)
  | EventKey r =>
    simp only [dispatch, dispatchKey_eq] at hd
    split_ifs at hd
    have h1 : σ1 = _ := (Option.some.inj hd).symm
    rw [h1]
    show ((onClearKey σ.screen r) cx cy).ch = ' ' ∨ (onClearKey σ.screen r) cx cy = σ.screen cx cy
    unfold onClearKey
    split_ifs
    · exact Or.inl rfl
    · exact Or.inr rfl
  | EventMouse px py buttons =>
    have h1 : σ1 = dispatchMouse σ px py buttons := (Option.some.inj hd).symm
    rw [h1]
    simp only [dispatchMouse]
    split_ifs
    · show (drawBox σ.screen px py σ.st.w σ.st.h defStyle cx cy).ch = ' ' ∨
        drawBox σ.screen px py σ.st.w σ.st.h defStyle cx cy = σ.screen cx cy
      rw [drawBox_apply]
      split_ifs
      · exact Or.inl rfl
      · exact Or.inr rfl
    · show (drawBox σ.screen px py σ.st.w σ.st.h σ.st.pencilStyle cx cy).ch = ' ' ∨
        drawBox σ.screen px py σ.st.w σ.st.h σ.st.pencilStyle cx cy = σ.screen cx cy
      rw [drawBox_apply]
      split_ifs
      · exact Or.inl rfl
      · exact Or.inr rfl
    · exact Or.inr rfl
  | EventOther =>
    have : σ = σ1 := Option.some.inj hd
    exact Or.inr (this ▸ rfl)

/-- On row 3 the overlay redraw writes the status text and nothing else. -/
theorem overlayScreen_row3 (p : PencilState) (s : Screen) (cx : Int) :
    overlayScreen p s cx 3
      = (textCell (statusText p).toList 0 3 defStyle cx 3).getD (s cx 3) := by
  rw [overlayScreen_apply]
  unfold overlayCell
  have e2b : ∀ st : Style, textCell " ".toList 1 2 st cx 3 = none := fun st =>
    (textCell_eq_none_iff _ _ _ _ _ _).2 (fun hh => absurd hh.1 (by decide))
  have e2a : ∀ st : Style, textCell " ".toList 0 2 st cx 3 = none := fun st =>
    (textCell_eq_none_iff _ _ _ _ _ _).2 (fun hh => absurd hh.1 (by decide))
  have e1 : textCell (infoText p).toList 0 1 defStyle cx 3 = none :=
    (textCell_eq_none_iff _ _ _ _ _ _).2 (fun hh => absurd hh.1 (by decide))
  have e0 : textCell helpText.toList 0 0 defStyle cx 3 = none :=
    (textCell_eq_none_iff _ _ _ _ _ _).2 (fun hh => absurd hh.1 (by decide))
  rw [e2b, e2a, e1, e0]
  cases textCell (statusText p).toList 0 3 defStyle cx 3 <;> rfl

/-- After the overlay redraw the cells of row 3 under the core of the status
text hold its runes. -/
theorem overlayScreen_status_text (p : PencilState) (s : Screen) (i : Nat) (c : Char)
    (hc : (statusCore p).toList[i]? = some c) :
    (overlayScreen p s (i : Int) 3).ch = c := by
  have hlt : i < (statusCore p).toList.length := by
    by_contra hge
    rw [List.getElem?_eq_none (by omega)] at hc
    exact absurd hc (by simp)
  rw [overlayScreen_row3]
  unfold textCell
  rw [if_pos ⟨rfl, by omega⟩]
  have hidx : ((i : Int) - 0).toNat = i := by omega
  rw [hidx, statusText_toList, List.getElem?_append_left hlt, hc]
  rfl

/-- After the overlay redraw a cell of row 3 beyond the core of the status text
holds a blank glyph when the surface before the redraw held one there from
three columns further on. -/
theorem overlayScreen_status_blank (p : PencilState) (s : Screen) (cx : Int)
    (hcx : cx < 0 ∨ ((statusCore p).length : Int) ≤ cx)
    (hs : cx < 0 ∨ ((statusCore p).length : Int) + 3 ≤ cx → (s cx 3).ch = ' ') :
    (overlayScreen p s cx 3).ch = ' ' := by
  have hlen : (statusCore p).toList.length = (statusCore p).length := rfl
  rw [overlayScreen_row3]
  unfold textCell
  by_cases hrow : (3 : Int) = 3 ∧ 0 ≤ cx
  · rw [if_pos hrow, statusText_toList]
    have hge : (statusCore p).toList.length ≤ (cx - 0).toNat := by omega
    rw [List.getElem?_append_right hge]
    by_cases hpad : cx < (statusCore p).length + 3
    · have hk : (cx - 0).toNat - (statusCore p).toList.length = 0 ∨
          (cx - 0).toNat - (statusCore p).toList.length = 1 ∨
          (cx - 0).toNat - (statusCore p).toList.length = 2 := by omega
      rcases hk with hk | hk | hk <;> rw [hk] <;> rfl
    · have hk : [' ', ' ', ' '].length ≤ (cx - 0).toNat - (statusCore p).toList.length := by
        simp only [List.length_cons, List.length_nil]
        omega
      rw [List.getElem?_eq_none hk]
      exact hs (Or.inr (by omega))
  · rw [if_neg hrow]
    exact hs (Or.inl (by omega))

/-- Every pass of the loop keeps the slot one of the two with the style in
step, and row 3 blank outside the status text. -/
theorem iteration_statusOk (σ : Session) (ev : Event) (σ2 : Session)
    (hJ : SlotOk σ.st ∧ StatusRowOk σ) (hit : iteration σ ev = some σ2) :
    SlotOk σ2.st ∧ StatusRowOk σ2 := by
  obtain ⟨hslot, hrow⟩ := hJ
  obtain ⟨σ1, hd, rfl⟩ := iteration_eq_some hit
  have hslot1 : SlotOk σ1.st := dispatch_slotOk σ ev σ1 hslot hd
  refine ⟨hslot1, ?_⟩
  intro cx hcx
  have hold := (statusCore_length σ.st hslot).2
  have hnew := (statusCore_length σ1.st hslot1).1
  show (overlayScreen σ1.st σ1.screen cx 3).ch = ' '
  refine overlayScreen_status_blank σ1.st σ1.screen cx hcx ?_
  intro hfar
  rcases dispatch_glyph σ ev σ1 hd cx 3 with hb | hsame
  · exact hb
  · rw [hsame]
    refine hrow cx ?_
    rcases hfar with h | h
    · exact Or.inl h
    · exact Or.inr (by omega)

/-- Row 3 of the initial session is blank. -/
theorem initialSession_statusOk : SlotOk initialSession.st ∧ StatusRowOk initialSession :=
  ⟨initialPencil_slotOk, fun _ _ => rfl⟩

/-- C20: in every reachable session, after the overlay redraw of a pass of the
loop (on any event that is no quit key), the slot is `primary` or `secondary`,
the glyphs of row 3 from column 0 read the current text
`<slot> | <erase flag>`, and every cell of row 3 to the right of that text
holds a blank glyph: nothing of a longer status text of the frame before is
left. -/
theorem status_line_overwrites (σ : Session) (ev : Event)
    (hr : Reachable σ) (hq : quits ev = false) :
    ∃ σ2, iteration σ ev = some σ2 ∧
      (σ2.st.currentColor = "primary" ∨ σ2.st.currentColor = "secondary") ∧
      (σ2.st.eraseMode = true → toString σ2.st.eraseMode = "true") ∧
      (σ2.st.eraseMode = false → toString σ2.st.eraseMode = "false") ∧
      (∀ (i : Nat) (c : Char),
        (σ2.st.currentColor ++ " | " ++ toString σ2.st.eraseMode).toList[i]? = some c →
        (σ2.screen (i : Int) 3).ch = c) ∧
      (∀ cx : Int,
        ((σ2.st.currentColor ++ " | " ++ toString σ2.st.eraseMode).length : Int) ≤ cx →
        (σ2.screen cx 3).ch = ' ') := by
  obtain ⟨evs, hrun⟩ := hr
  have hJ : SlotOk σ.st ∧ StatusRowOk σ :=
    run_preserves_session (fun τ => SlotOk τ.st ∧ StatusRowOk τ) iteration_statusOk
      evs initialSession σ initialSession_statusOk hrun
  obtain ⟨σ1, _, hit⟩ := iteration_of_not_quits σ ev hq
  obtain ⟨hslot2, hrow2⟩ := iteration_statusOk σ ev (overlay σ1) hJ hit
  refine ⟨overlay σ1, hit, ?_, ?_, ?_, ?_, ?_⟩
  · rcases hslot2 with ⟨hc, _⟩ | ⟨hc, _⟩
    · exact Or.inl hc
    · exact Or.inr hc
  · intro h
    rw [h]
    rfl
  · intro h
    rw [h]
    rfl
  · intro i c hc
    exact overlayScreen_status_text σ1.st σ1.screen i c hc
  · intro cx hcx
    exact hrow2 cx (Or.inr hcx)

/-- C20 on the reachable session `recolouredSession` (secondary slot, erase
off) and the key `x`: the status text shrinks from `secondary | false` to
`primary | false`; column 0 reads `p`, and column 16, where the `e` of the
longer text stood, holds a blank. -/
theorem status_line_overwrites_witness :
    (Reachable recolouredSession ∧ quits (Event.EventKey 'x') = false) ∧
    (recolouredSession.st.currentColor = "secondary" ∧
      iteration recolouredSession (Event.EventKey 'x') = some switchedSession ∧
      switchedSession.st.currentColor = "primary") ∧
    ∃ σ2, iteration recolouredSession (Event.EventKey 'x') = some σ2 ∧
      (σ2.st.currentColor = "primary" ∨ σ2.st.currentColor = "secondary") ∧
      (σ2.st.eraseMode = true → toString σ2.st.eraseMode = "true") ∧
      (σ2.st.eraseMode = false → toString σ2.st.eraseMode = "false") ∧
      (∀ (i : Nat) (c : Char),
        (σ2.st.currentColor ++ " | " ++ toString σ2.st.eraseMode).toList[i]? = some c →
        (σ2.screen (i : Int) 3).ch = c) ∧
      (∀ cx : Int,
        ((σ2.st.currentColor ++ " | " ++ toString σ2.st.eraseMode).length : Int) ≤ cx →
        (σ2.screen cx 3).ch = ' ') :=
  ⟨⟨⟨recolouredEvents, rfl⟩, rfl⟩, ⟨rfl, rfl, rfl⟩,
   status_line_overwrites recolouredSession (Event.EventKey 'x') ⟨recolouredEvents, rfl⟩ rfl⟩

end Drew
